import Mathlib

/-!
Verification of the Conversation State Reconciler of `agentic-chat-ui`
(`src/frontend/src/hooks/useAgent.ts`).

The development shallowly embeds the subscriber handlers of `useAgent`:
the step codec (`stepName.split('|||')`), the text-delta handler, the
step-started / step-finished handlers, the run lifecycle handlers, and
the `onMessagesChanged` resync merge (id map, assistant-position map,
walk, and tail-preservation rule).  JavaScript `Map` objects are embedded
as association lists whose lookup prefers the most recent `set`;
JavaScript string truthiness (`s || t`) is embedded by explicit tests
against the empty string; optional fields are `Option`.
-/

set_option maxHeartbeats 1000000

namespace AgenticChat

/-- Step status, from `StepData.status : 'running' | 'completed'`. -/

inductive StepStatus where
  | running
  | completed
deriving DecidableEq, Repr

/-- Message roles of the `@ag-ui/client` `Message` type. -/
inductive Role where
  | user
  | assistant
  | system
  | developer
  | tool
deriving DecidableEq, Repr

/-- `StepData` of `useAgent.ts`: `{ name, text, status }`. -/
structure StepData where
  name : String
  text : String
  status : StepStatus
deriving DecidableEq, Repr

/-- `EnhancedMessage = Message & { steps?: StepData[] }`.  The optional
`steps` field is `Option (List StepData)`; `content` is a string. -/

structure EnhancedMessage where
  id : String
  role : Role
  content : String
  steps : Option (List StepData)
deriving DecidableEq, Repr

/-- A message as pushed by the transport in `onMessagesChanged`
(`agent.messages`): the plain `Message` type, which carries no `steps`
field. -/

structure SnapMessage where
  id : String
  role : Role
  content : String
deriving DecidableEq, Repr

/-! ### Step codec: `split('|||')`

JavaScript `String.prototype.split` with a plain-string separator scans
left to right and consumes each non-overlapping occurrence of the
separator.  We embed it over `List Char`. -/

/-- The separator `'|||'` used by `onStepStartedEvent` / `onStepFinishedEvent`. -/
def sepL : List Char := ['|', '|', '|']

/-- `startsWithL l p`: the list `l` starts with the pattern `p`. -/
def startsWithL : List Char → List Char → Bool
  | _, [] => true
  | [], _ :: _ => false
  | c :: cs, p :: ps => decide (c = p) && startsWithL cs ps

/-- `containsSeq l pat`: the pattern `pat` occurs somewhere in `l`
(JavaScript `String.prototype.includes`). -/

def containsSeq : List Char → List Char → Bool
  | [], pat => startsWithL [] pat
  | c :: cs, pat => startsWithL (c :: cs) pat || containsSeq cs pat

/-- Accumulator loop of `split('|||')`: scan left to right, cutting at
each non-overlapping occurrence of the three-pipe separator. -/

def splitSepAux : List Char → List Char → List (List Char)
  | [], acc => [acc.reverse]
  | c1 :: c2 :: c3 :: rest, acc =>
    if c1 = '|' ∧ c2 = '|' ∧ c3 = '|' then acc.reverse :: splitSepAux rest []
    else splitSepAux (c2 :: c3 :: rest) (c1 :: acc)
  | c :: cs, acc => splitSepAux cs (c :: acc)

/-- `jsSplitSep l` embeds `s.split('|||')` on `s.data = l`. -/
def jsSplitSep (l : List Char) : List (List Char) := splitSepAux l []

/-- The step codec of `useAgent.ts`:
`parts = wire.split('|||'); name = parts[0]; text = parts[1] || ''`. -/

def decodeStep (wire : String) : String × String :=
  (String.mk ((jsSplitSep wire.data).headD []),
   String.mk (((jsSplitSep wire.data).drop 1).headD []))

/-- Positions at which the separator occurs in a wire string (used to
state the claims about "occurrences" of the separator). -/

def sepOccurrences (w : String) : List Nat :=
  (List.range w.data.length).filter (fun i => startsWithL (w.data.drop i) sepL)

/-- `event?.delta && typeof content === 'string' ? content + delta : content`
(in our embedding `content` is always a string, so the `typeof` guard
always passes). -/
def appendDeltaJs (delta : Option String) (existing : String) : String :=
  match delta with
  | some d => if d = "" then existing else existing ++ d
  | none => existing

/-- The content resolution of the update branch of
`onTextMessageContentEvent`: use the buffer if truthy, otherwise append
a truthy delta to the existing content, otherwise keep the content. -/

def resolveContentJs (buffer delta : Option String) (existing : String) : String :=
  match buffer with
  | some b => if b = "" then appendDeltaJs delta existing else b
  | none => appendDeltaJs delta existing

/-- `newContent || event?.delta || ''`: the content of the freshly pushed
assistant message in `onTextMessageContentEvent`. -/

def pushContentJs (buffer delta : Option String) : String :=
  match buffer with
  | some b => if b = "" then (match delta with | some d => d | none => "") else b
  | none => match delta with | some d => d | none => ""

/-- `onTextMessageContentEvent`, restricted to its transcript update
(the `setMessages` functional update).  `freshId` stands for the
`assistant-${Date.now()}` id of a newly pushed message. -/

def onTextMessageContentEvent (freshId : String) (buffer delta : Option String)
    (msgs : List EnhancedMessage) : List EnhancedMessage :=
  match msgs.getLast? with
  | some lastMsg =>
    if lastMsg.role = Role.assistant then
      msgs.dropLast ++ [{ lastMsg with content := resolveContentJs buffer delta lastMsg.content }]
    else
      msgs ++ [{ id := freshId, role := Role.assistant,
                 content := pushContentJs buffer delta, steps := none }]
  | none =>
    msgs ++ [{ id := freshId, role := Role.assistant,
               content := pushContentJs buffer delta, steps := none }]

/-! ### The step handlers -/

/-- The new `StepData` built by `onStepStartedEvent` from the decoded
wire field, with status `running`. -/

def mkRunningStep (wire : String) : StepData :=
  { name := (decodeStep wire).1, text := (decodeStep wire).2, status := StepStatus.running }

/-- The fresh assistant message pushed by `onStepStartedEvent` when the
last message is not an assistant message. -/

def newStepMessage (freshId wire : String) : EnhancedMessage :=
  { id := freshId, role := Role.assistant, content := "", steps := some [mkRunningStep wire] }

/-- `onStepStartedEvent`, restricted to its transcript update:
append a running step to the last assistant message
(`lastMsg.steps ? [...lastMsg.steps, newStep] : [newStep]`), or push a
new assistant message carrying just that step. -/

def onStepStartedEvent (freshId wire : String) (msgs : List EnhancedMessage) :
    List EnhancedMessage :=
  match msgs.getLast? with
  | some lastMsg =>
    if lastMsg.role = Role.assistant then
      msgs.dropLast ++ [{ lastMsg with steps := some (lastMsg.steps.getD [] ++ [mkRunningStep wire]) }]
    else msgs ++ [newStepMessage freshId wire]
  | none => msgs ++ [newStepMessage freshId wire]

/-- The per-step update of `onStepFinishedEvent`
(`steps.map(step => ...)`): a step whose name matches the decoded name
and whose status is `running` becomes `completed`; all others are
returned unchanged. -/

def completeStep (stepName : String) (step : StepData) : StepData :=
  if step.name = stepName ∧ step.status = StepStatus.running then
    { step with status := StepStatus.completed }
  else step

/-- `onStepFinishedEvent`, restricted to its transcript update: if the
last message is an assistant message with a step list, map
`completeStep` over that list; otherwise no-op. -/

def onStepFinishedEvent (wire : String) (msgs : List EnhancedMessage) : List EnhancedMessage :=
  match msgs.getLast? with
  | some lastMsg =>
    match lastMsg.steps with
    | some steps =>
      if lastMsg.role = Role.assistant then
        msgs.dropLast ++
          [{ lastMsg with steps := some (steps.map (completeStep (decodeStep wire).1)) }]
      else msgs
    | none => msgs
  | none => msgs

/-! ### The resync merge (`onMessagesChanged`)

The handler builds two JavaScript `Map`s over the previous transcript —
`stepsById` (messages with a present `steps` field and a non-empty id
not containing `'placeholder'`) and `stepsByIndex` (keyed by the
position among assistant-role messages) — then walks `agent.messages`
attaching steps found by id first and by assistant position second, and
finally applies the tail-preservation rule when a run is in flight.
`Map` objects are embedded as association lists where a later `set`
shadows an earlier one. -/

/-- Association-list lookup standing for `Map.prototype.get`: the entry
closest to the head wins, so `set` operations append at the head side of
the growing tail (we build the lists so that later messages come first
in lookup order). -/

def mapGetS : List (String × List StepData) → String → Option (List StepData)
  | [], _ => none
  | (k, v) :: rest, key => if k = key then some v else mapGetS rest key

/-- Association-list lookup for the `stepsByIndex` map. -/
def mapGetN : List (Nat × List StepData) → Nat → Option (List StepData)
  | [], _ => none
  | (k, v) :: rest, key => if k = key then some v else mapGetN rest key

/-- `msg.id && !msg.id.includes('placeholder')`: a non-empty id that does
not contain the substring `placeholder`. -/

def validId (id : String) : Bool :=
  !(id = "" : Bool) && !containsSeq id.data ("placeholder".data)

/-- Build `stepsById` and `stepsByIndex` from the previous transcript.
The `aIdx` parameter is the running assistant counter (`assistantIndex`).
Entries of later messages are placed in front of the `mapGetS`/`mapGetN`
scan order, matching `Map.set` overwrite semantics. -/

def mergeBuild : List EnhancedMessage → Nat →
    List (String × List StepData) × List (Nat × List StepData)
  | [], _ => ([], [])
  | msg :: rest, aIdx =>
    let tail := mergeBuild rest (if msg.role = Role.assistant then aIdx + 1 else aIdx)
    match msg.steps with
    | none => tail
    | some steps =>
      (if validId msg.id then tail.1 ++ [(msg.id, steps)] else tail.1,
       if msg.role = Role.assistant then tail.2 ++ [(aIdx, steps)] else tail.2)

/-- The walk over `agent.messages` (`agent.messages.map(...)` with the
mutable `currentAssistantIndex` counter): look up steps by id, then — for
assistant messages only — by the counter of assistant messages that were
not matched by id, incrementing that counter exactly in the fallback
branch. -/

def mergeWalk (byId : List (String × List StepData)) (byPos : List (Nat × List StepData)) :
    List SnapMessage → Nat → List EnhancedMessage
  | [], _ => []
  | m :: rest, cIdx =>
    match mapGetS byId m.id with
    | some l =>
      { id := m.id, role := m.role, content := m.content, steps := some l } ::
        mergeWalk byId byPos rest cIdx
    | none =>
      if m.role = Role.assistant then
        match mapGetN byPos cIdx with
        | some l =>
          { id := m.id, role := m.role, content := m.content, steps := some l } ::
            mergeWalk byId byPos rest (cIdx + 1)
        | none =>
          { id := m.id, role := m.role, content := m.content, steps := none } ::
            mergeWalk byId byPos rest (cIdx + 1)
      else
        { id := m.id, role := m.role, content := m.content, steps := none } ::
          mergeWalk byId byPos rest cIdx

/-- The id-then-position matching pass of `onMessagesChanged` (the
`result` array before the tail-preservation rule). -/

def mergeWalkTop (prev : List EnhancedMessage) (snap : List SnapMessage) :
    List EnhancedMessage :=
  mergeWalk (mergeBuild prev 0).1 (mergeBuild prev 0).2 snap 0

/-- The tail-preservation rule: while a run is in flight, if the last
messages of the merged result and of the previous transcript are both
assistant-role, the previous one carries steps and the merged one lacks
them, copy the steps over. -/

def applyTailRule (prev : List EnhancedMessage) (running : Bool)
    (result : List EnhancedMessage) : List EnhancedMessage :=
  if running then
    match result.getLast?, prev.getLast? with
    | some lr, some lp =>
      if lr.role = Role.assistant ∧ lp.role = Role.assistant ∧
          lp.steps.isSome = true ∧ lr.steps = none then
        result.dropLast ++ [{ lr with steps := lp.steps }]
      else result
    | _, _ => result
  else result

/-- The whole `onMessagesChanged` transcript update. -/
def mergeMessages (prev : List EnhancedMessage) (snap : List SnapMessage)
    (running : Bool) : List EnhancedMessage :=
  applyTailRule prev running (mergeWalkTop prev snap)

/-! ### The reconciler state and the event loop -/

/-- The reconciler state of `useAgent`: the transcript, the running flag
(`isRunning` / `isRunningRef`), the streaming buffer (`streamingText`)
and the surfaced error. -/

structure AgentState where
  messages : List EnhancedMessage
  isRunning : Bool
  streamingText : Option String
  error : Option String
deriving DecidableEq, Repr

/-- The initial state of the hook. -/
def initialState : AgentState :=
  { messages := [], isRunning := false, streamingText := none, error := none }

/-- The protocol events consumed by the subscriber.  `textDelta` carries
the cumulative buffer and the incremental delta, either possibly absent;
`messagesSnapshot` carries the authoritative `agent.messages` list,
which has no step data. -/

inductive Event where
  | runStarted
  | runFinished
  | runError (message : String)
  | textDelta (buffer : Option String) (delta : Option String)
  | stepStarted (wire : String)
  | stepFinished (wire : String)
  | messagesSnapshot (snap : List SnapMessage)
deriving DecidableEq, Repr

/-- `event.message || 'An error occurred'`. -/
def errorTextJs (message : String) : String :=
  if message = "" then "An error occurred" else message

/-- One step of the subscriber: dispatch an event to its handler.
`freshId` stands for the `assistant-${Date.now()}` id a handler would
mint if it pushes a new assistant message. -/

def applyEvent (freshId : String) (e : Event) (s : AgentState) : AgentState :=
  match e with
  | Event.runStarted =>
    { s with isRunning := true, error := none, streamingText := none }
  | Event.runFinished =>
    { s with isRunning := false, streamingText := none }
  | Event.runError message =>
    { s with error := some (errorTextJs message), isRunning := false, streamingText := none }
  | Event.textDelta buffer delta =>
    { s with streamingText := buffer,
             messages := onTextMessageContentEvent freshId buffer delta s.messages }
  | Event.stepStarted wire =>
    { s with messages := onStepStartedEvent freshId wire s.messages }
  | Event.stepFinished wire =>
    { s with messages := onStepFinishedEvent wire s.messages }
  | Event.messagesSnapshot snap =>
    { s with messages := mergeMessages s.messages snap s.isRunning }

/-- Apply a sequence of events (each paired with the fresh id its
handler would mint). -/

def applyEvents : List (String × Event) → AgentState → AgentState
  | [], s => s
  | (freshId, e) :: rest, s => applyEvents rest (applyEvent freshId e s)

def assistantsOf (msgs : List EnhancedMessage) : List EnhancedMessage :=
  msgs.filter (fun m => decide (m.role = Role.assistant))

/-- `providesSteps prev key`: some message of `prev` would put an entry
for `key` into `stepsById` (present steps, valid id, id equal to `key`). -/

def providesSteps (prev : List EnhancedMessage) (key : String) : Bool :=
  prev.any (fun m => m.steps.isSome && validId m.id && decide (m.id = key))

def unmatchedCount (byId : List (String × List StepData)) (l : List SnapMessage) : Nat :=
  (l.filter (fun m => decide (m.role = Role.assistant) && (mapGetS byId m.id).isNone)).length

/-! ### The id sequence of a transcript -/

/-- The ids of a transcript, in order. -/
def idsOf (msgs : List EnhancedMessage) : List String := msgs.map (fun m => m.id)

def isSubseq : List String → List String → Bool
  | [], _ => true
  | _ :: _, [] => false
  | x :: xs, y :: ys => if x = y then isSubseq xs ys else isSubseq (x :: xs) ys

def specAppendOrKeep (delta : Option String) (existing : String) : String :=
  match delta with
  | some d => existing ++ d
  | none => existing

/-- Spec wording: prefer the cumulative buffer if non-empty, otherwise
fall back to the delta resolution. -/

def specResolveContent (buffer delta : Option String) (existing : String) : String :=
  match buffer with
  | some b => if b = "" then specAppendOrKeep delta existing else b
  | none => specAppendOrKeep delta existing

/-- Spec wording: the delta when present, otherwise the empty string. -/
def specDeltaOrEmpty : Option String → String
  | some d => d
  | none => ""

/-- Spec wording: the content of the freshly appended assistant message —
the non-empty cumulative buffer if available, else the delta, else empty. -/

def specPushContent (buffer delta : Option String) : String :=
  match buffer with
  | some b => if b = "" then specDeltaOrEmpty delta else b
  | none => specDeltaOrEmpty delta

def unmatchedRank (prev : List EnhancedMessage) (snap : List SnapMessage) (j : Nat) : Nat :=
  ((snap.take j).filter
    (fun m => decide (m.role = Role.assistant) && !(providesSteps prev m.id))).length

/-- A running step named `A`, used by the concrete evaluations. -/
def stepARunning : StepData := { name := "A", text := "", status := StepStatus.running }

/-- The completed counterpart of `stepARunning`. -/
def stepACompleted : StepData := { name := "A", text := "", status := StepStatus.completed }

/-- A one-message transcript whose assistant message carries `stepARunning`. -/
def msgWithRunningA : EnhancedMessage :=
  { id := "m", role := Role.assistant, content := "", steps := some [stepARunning] }

/-- The message of `msgWithRunningA` after its step completed. -/
def msgWithCompletedA : EnhancedMessage :=
  { id := "m", role := Role.assistant, content := "", steps := some [stepACompleted] }

/-- A mid-run state holding `msgWithRunningA`. -/
def stateWithRunningA : AgentState :=
  { messages := [msgWithRunningA], isRunning := true, streamingText := none, error := none }

/-! ### Lemmas about the codec -/

theorem startsWithL_append_of_le (p l₁ l₂ : List Char) (h : p.length ≤ l₁.length) :
    startsWithL (l₁ ++ l₂) p = startsWithL l₁ p := by
  induction p generalizing l₁ with
  | nil => cases l₁ <;> simp [startsWithL]
  | cons c cs ih =>
    cases l₁ with
    | nil => simp at h
    | cons a as =>
      simp only [List.cons_append, startsWithL]
      exact congrArg (fun x => decide (a = c) && x)
        (ih as (by simpa using Nat.le_of_succ_le_succ h))

theorem splitSepAux_cons3 (c1 c2 c3 : Char) (rest acc : List Char) :
    splitSepAux (c1 :: c2 :: c3 :: rest) acc =
      if c1 = '|' ∧ c2 = '|' ∧ c3 = '|' then acc.reverse :: splitSepAux rest []
      else splitSepAux (c2 :: c3 :: rest) (c1 :: acc) := rfl

theorem splitSepAux_sep_head (r acc : List Char) :
    splitSepAux (sepL ++ r) acc = acc.reverse :: splitSepAux r [] := by
  show splitSepAux ('|' :: '|' :: '|' :: r) acc = _
  rw [splitSepAux_cons3, if_pos ⟨rfl, rfl, rfl⟩]

theorem splitSepAux_no_sep : ∀ l acc : List Char, containsSeq l sepL = false →
    splitSepAux l acc = [acc.reverse ++ l]
  | [], acc, _ => by simp [splitSepAux]
  | [c], acc, _ => by
    show [(c :: acc).reverse] = [acc.reverse ++ [c]]
    simp
  | [c, d], acc, _ => by
    show [(d :: c :: acc).reverse] = [acc.reverse ++ [c, d]]
    simp
  | c1 :: c2 :: c3 :: rest, acc, h => by
    have h1 : startsWithL (c1 :: c2 :: c3 :: rest) sepL = false ∧
        containsSeq (c2 :: c3 :: rest) sepL = false := by
      have hu : containsSeq (c1 :: c2 :: c3 :: rest) sepL =
          (startsWithL (c1 :: c2 :: c3 :: rest) sepL || containsSeq (c2 :: c3 :: rest) sepL) :=
        rfl
      rw [hu] at h
      exact Bool.or_eq_false_iff.mp h
    have hns : ¬(c1 = '|' ∧ c2 = '|' ∧ c3 = '|') := by
      rintro ⟨rfl, rfl, rfl⟩
      simp [startsWithL, sepL] at h1
    rw [splitSepAux_cons3, if_neg hns, splitSepAux_no_sep (c2 :: c3 :: rest) (c1 :: acc) h1.2]
    simp

theorem splitSepAux_junction : ∀ a : List Char, ∀ r acc : List Char,
    containsSeq (a ++ ['|', '|']) sepL = false →
    splitSepAux (a ++ sepL ++ r) acc = (acc.reverse ++ a) :: splitSepAux r []
  | [], r, acc, _ => by
    rw [List.nil_append, splitSepAux_sep_head r acc]
    simp
  | [c], r, acc, h => by
    have hc : ¬(c = '|') := by
      rintro rfl
      simp [containsSeq, startsWithL, sepL] at h
    show splitSepAux (c :: '|' :: '|' :: ('|' :: r)) acc = (acc.reverse ++ [c]) :: splitSepAux r []
    rw [splitSepAux_cons3, if_neg (by rintro ⟨rfl, -, -⟩; exact hc rfl)]
    rw [show ('|' :: '|' :: ('|' :: r) : List Char) = sepL ++ r from rfl, splitSepAux_sep_head]
    simp
  | [c, d], r, acc, h => by
    have h1 : startsWithL ([c, d] ++ ['|', '|']) sepL = false ∧
        containsSeq ([d] ++ ['|', '|']) sepL = false := by
      have hu : containsSeq ([c, d] ++ ['|', '|']) sepL =
          (startsWithL ([c, d] ++ ['|', '|']) sepL || containsSeq ([d] ++ ['|', '|']) sepL) := rfl
      rw [hu] at h
      exact Bool.or_eq_false_iff.mp h
    have hcd : ¬(c = '|' ∧ d = '|') := by
      rintro ⟨rfl, rfl⟩
      simp [startsWithL, sepL] at h1
    show splitSepAux (c :: d :: '|' :: ('|' :: '|' :: r)) acc =
      (acc.reverse ++ [c, d]) :: splitSepAux r []
    rw [splitSepAux_cons3, if_neg (by rintro ⟨rfl, rfl, -⟩; exact hcd ⟨rfl, rfl⟩)]
    have hrec := splitSepAux_junction [d] r (c :: acc) h1.2
    rw [show ([d] ++ sepL ++ r : List Char) = d :: '|' :: ('|' :: '|' :: r) from rfl] at hrec
    rw [hrec]
    simp
  | c :: d :: e :: t, r, acc, h => by
    have h1 : startsWithL ((c :: d :: e :: t) ++ ['|', '|']) sepL = false ∧
        containsSeq ((d :: e :: t) ++ ['|', '|']) sepL = false := by
      have hu : containsSeq ((c :: d :: e :: t) ++ ['|', '|']) sepL =
          (startsWithL ((c :: d :: e :: t) ++ ['|', '|']) sepL ||
            containsSeq ((d :: e :: t) ++ ['|', '|']) sepL) := rfl
      rw [hu] at h
      exact Bool.or_eq_false_iff.mp h
    have hns : ¬(c = '|' ∧ d = '|' ∧ e = '|') := by
      rintro ⟨rfl, rfl, rfl⟩
      simp [startsWithL, sepL] at h1
    show splitSepAux (c :: d :: e :: (t ++ sepL ++ r)) acc =
      (acc.reverse ++ (c :: d :: e :: t)) :: splitSepAux r []
    rw [splitSepAux_cons3, if_neg hns]
    have hrec := splitSepAux_junction (d :: e :: t) r (c :: acc) h1.2
    rw [show ((d :: e :: t) ++ sepL ++ r : List Char) = d :: e :: (t ++ sepL ++ r) from
      by simp] at hrec
    rw [hrec]
    simp

theorem jsSplitSep_no_sep (l : List Char) (h : containsSeq l sepL = false) :
    jsSplitSep l = [l] := by
  rw [jsSplitSep, splitSepAux_no_sep l [] h]; simp

theorem jsSplitSep_junction (a r : List Char) (h : containsSeq (a ++ ['|', '|']) sepL = false) :
    jsSplitSep (a ++ sepL ++ r) = a :: splitSepAux r [] := by
  rw [jsSplitSep, splitSepAux_junction a r [] h]; simp

theorem decodeStep_no_sep (w : String) (h : containsSeq w.data sepL = false) :
    decodeStep w = (w, "") := by
  rw [decodeStep, jsSplitSep_no_sep w.data h]
  rfl

theorem decodeStep_one_sep (a b : List Char)
    (ha : containsSeq (a ++ ['|', '|']) sepL = false) (hb : containsSeq b sepL = false) :
    decodeStep (String.mk (a ++ sepL ++ b)) = (String.mk a, String.mk b) := by
  have hdata : (String.mk (a ++ sepL ++ b)).data = a ++ sepL ++ b := rfl
  rw [decodeStep, hdata, jsSplitSep_junction a b ha, splitSepAux_no_sep b [] hb]
  rfl

theorem decodeStep_two_sep (a b c : List Char)
    (ha : containsSeq (a ++ ['|', '|']) sepL = false)
    (hb : containsSeq (b ++ ['|', '|']) sepL = false) :
    decodeStep (String.mk (a ++ sepL ++ (b ++ sepL ++ c))) = (String.mk a, String.mk b) := by
  have hdata : (String.mk (a ++ sepL ++ (b ++ sepL ++ c))).data = a ++ sepL ++ (b ++ sepL ++ c) :=
    rfl
  rw [decodeStep, hdata, jsSplitSep_junction a (b ++ sepL ++ c) ha,
    splitSepAux_junction b c [] hb]
  rfl

/-- Claim C9, counterexample: on the wire field `"a|||"` the separator
does occur, yet the decoded description is the empty string — the claim
says the description is then the non-empty text following the separator. -/

theorem c9_counterexample :
    containsSeq ("a|||" : String).data sepL = true ∧ decodeStep "a|||" = ("a", "") := by
  decide

/-- Claim C9 (amended): decoding is total; when the separator is absent
the whole input is the name and the description is empty; when the
separator occurs, the name is the text before its first occurrence and
the description is the (possibly empty) text between the first
occurrence and the next non-overlapping occurrence or the end of the
input.  The hypotheses state, in substring form, that the name segment
contains no separator and does not itself border one. -/

theorem c9_amended_decode :
    (∀ w : String, containsSeq w.data sepL = false → decodeStep w = (w, "")) ∧
    (∀ a b : List Char, containsSeq (a ++ ['|', '|']) sepL = false →
      containsSeq b sepL = false →
      decodeStep (String.mk (a ++ sepL ++ b)) = (String.mk a, String.mk b)) :=
  ⟨decodeStep_no_sep, decodeStep_one_sep⟩

/-- Claim C9, witness: the amended theorem evaluated on `"X"` and on
`"Plan|||go"`. -/

theorem c9_witness :
    decodeStep "X" = ("X", "") ∧
    decodeStep (String.mk (['P', 'l', 'a', 'n'] ++ sepL ++ ['g', 'o'])) =
      (String.mk ['P', 'l', 'a', 'n'], String.mk ['g', 'o']) :=
  ⟨c9_amended_decode.1 "X" (by decide),
   c9_amended_decode.2 ['P', 'l', 'a', 'n'] ['g', 'o'] (by decide) (by decide)⟩

/-- Claim C10, counterexample: in `"a||||b"` the separator occurs (as a
substring) at positions 1 and 2 only; the decoded description is `"|b"`,
and the character `'b'`, which lies strictly after the second occurrence
(which spans positions 2 to 4), appears in the decoded description — so
the text after the second occurrence is not discarded, and the
description is not the segment strictly between the two occurrences. -/

theorem c10_counterexample :
    sepOccurrences "a||||b" = [1, 2] ∧
    decodeStep "a||||b" = ("a", "|b") ∧
    ("a||||b" : String).data.drop 5 = ['b'] ∧
    containsSeq ("|b" : String).data ['b'] = true := by
  decide

/-- Claim C10 (amended): when the occurrences of the separator are
scanned left to right without overlap — the name segment `a` and the
description segment `b` each contain no separator and do not border
one — the decoded description is exactly the segment between the first
and second such occurrences, and everything from the second occurrence
on is discarded. -/

theorem c10_amended_decode_two_separators :
    ∀ a b c : List Char, containsSeq (a ++ ['|', '|']) sepL = false →
      containsSeq (b ++ ['|', '|']) sepL = false →
      decodeStep (String.mk (a ++ sepL ++ (b ++ sepL ++ c))) = (String.mk a, String.mk b) :=
  decodeStep_two_sep

/-- Claim C10, witness: the amended theorem evaluated on
`"go|||x|||dropped"`. -/

theorem c10_witness :
    decodeStep (String.mk (['g', 'o'] ++ sepL ++ (['x'] ++ sepL ++ ['d', 'r', 'o', 'p']))) =
      (String.mk ['g', 'o'], String.mk ['x']) :=
  c10_amended_decode_two_separators ['g', 'o'] ['x'] ['d', 'r', 'o', 'p']
    (by decide) (by decide)

/-! ### The text-delta handler (`onTextMessageContentEvent`)

`textMessageBuffer` (the cumulative buffer) and `event.delta` are both
possibly absent; JavaScript string truthiness makes the empty string
behave like an absent value, which we embed by explicit `= ""` tests. -/

/-! ### General list helpers -/

theorem getLast?_mem' {α : Type} {l : List α} {x : α} (h : l.getLast? = some x) : x ∈ l := by
  rw [List.getLast?_eq_getElem?] at h
  exact List.getElem?_mem h

theorem dropLast_concat_getLast?' {α : Type} : ∀ {l : List α} {x : α},
    l.getLast? = some x → l.dropLast ++ [x] = l
  | [], x, h => by simp at h
  | [a], x, h => by
    simp only [List.getLast?_singleton, Option.some.injEq] at h
    simp [h]
  | a :: b :: t, x, h => by
    rw [List.getLast?_cons_cons] at h
    have := dropLast_concat_getLast?' (l := b :: t) h
    simpa using this

theorem getElem?_dropLast_concat {α : Type} : ∀ (l : List α) (y : α) (i : Nat),
    i < l.length →
    (l.dropLast ++ [y])[i]? = if i + 1 = l.length then some y else l[i]?
  | [], _, i, h => by simp at h
  | [a], y, i, h => by
    have : i = 0 := by simpa using Nat.lt_one_iff.mp (by simpa using h)
    subst this
    simp
  | a :: b :: t, y, 0, _ => by
    have hlen : ¬(0 + 1 = (a :: b :: t).length) := by simp
    simp [hlen]
  | a :: b :: t, y, i + 1, h => by
    have hlt : i < (b :: t).length := by simpa using Nat.lt_of_succ_lt_succ h
    have := getElem?_dropLast_concat (b :: t) y i hlt
    simp only [List.dropLast_cons₂, List.cons_append, List.getElem?_cons_succ]
    rw [this]
    simp [List.length_cons, Nat.succ_inj]

theorem getElem?_concat_left {α : Type} (l l₂ : List α) (i : Nat) (h : i < l.length) :
    (l ++ l₂)[i]? = l[i]? :=
  List.getElem?_append_left h

theorem mapGetS_append_of_some {xs : List (String × List StepData)} {k : String}
    {v : List StepData} (ys : List (String × List StepData)) (h : mapGetS xs k = some v) :
    mapGetS (xs ++ ys) k = some v := by
  induction xs with
  | nil => simp [mapGetS] at h
  | cons e rest ih =>
    rcases e with ⟨ek, ev⟩
    by_cases he : ek = k
    · simp only [mapGetS, if_pos he] at h
      simp only [List.cons_append, mapGetS, if_pos he]
      exact h
    · simp only [mapGetS, if_neg he] at h
      simp only [List.cons_append, mapGetS, if_neg he]
      exact ih h

theorem mapGetS_append_of_none {xs : List (String × List StepData)} {k : String}
    (ys : List (String × List StepData)) (h : mapGetS xs k = none) :
    mapGetS (xs ++ ys) k = mapGetS ys k := by
  induction xs with
  | nil => simp
  | cons e rest ih =>
    rcases e with ⟨ek, ev⟩
    by_cases he : ek = k
    · simp only [mapGetS, if_pos he] at h
      exact absurd h (by simp)
    · simp only [mapGetS, if_neg he] at h
      simp only [List.cons_append, mapGetS, if_neg he]
      exact ih h

theorem mapGetN_append_of_some {xs : List (Nat × List StepData)} {k : Nat}
    {v : List StepData} (ys : List (Nat × List StepData)) (h : mapGetN xs k = some v) :
    mapGetN (xs ++ ys) k = some v := by
  induction xs with
  | nil => simp [mapGetN] at h
  | cons e rest ih =>
    rcases e with ⟨ek, ev⟩
    by_cases he : ek = k
    · simp only [mapGetN, if_pos he] at h
      simp only [List.cons_append, mapGetN, if_pos he]
      exact h
    · simp only [mapGetN, if_neg he] at h
      simp only [List.cons_append, mapGetN, if_neg he]
      exact ih h

theorem mapGetN_append_of_none {xs : List (Nat × List StepData)} {k : Nat}
    (ys : List (Nat × List StepData)) (h : mapGetN xs k = none) :
    mapGetN (xs ++ ys) k = mapGetN ys k := by
  induction xs with
  | nil => simp
  | cons e rest ih =>
    rcases e with ⟨ek, ev⟩
    by_cases he : ek = k
    · simp only [mapGetN, if_pos he] at h
      exact absurd h (by simp)
    · simp only [mapGetN, if_neg he] at h
      simp only [List.cons_append, mapGetN, if_neg he]
      exact ih h

/-! ### Characterizing the two resync maps -/

/-- The assistant-role messages of a transcript, in order: the domain of
the `stepsByIndex` map. -/

theorem mapGetN_mergeBuild : ∀ (prev : List EnhancedMessage) (aIdx k : Nat),
    mapGetN (mergeBuild prev aIdx).2 k =
      if k < aIdx then none
      else ((assistantsOf prev)[k - aIdx]?).bind (fun m => m.steps) := by
  intro prev
  induction prev with
  | nil => intro aIdx k; simp [mergeBuild, mapGetN, assistantsOf]
  | cons msg rest ih =>
    intro aIdx k
    by_cases hrole : msg.role = Role.assistant
    · have hassist : assistantsOf (msg :: rest) = msg :: assistantsOf rest := by
        simp [assistantsOf, hrole]
      cases hsteps : msg.steps with
      | none =>
        have hbuild : (mergeBuild (msg :: rest) aIdx).2 = (mergeBuild rest (aIdx + 1)).2 := by
          simp [mergeBuild, hsteps, hrole]
        rw [hbuild, ih (aIdx + 1) k, hassist]
        rcases Nat.lt_trichotomy k aIdx with hk | hk | hk
        · rw [if_pos (by omega), if_pos hk]
        · rw [if_pos (by omega), if_neg (by omega)]
          have h0 : k - aIdx = 0 := by omega
          rw [h0]
          simp [hsteps]
        · rw [if_neg (by omega), if_neg (by omega)]
          have h1 : k - aIdx = (k - (aIdx + 1)) + 1 := by omega
          rw [h1, List.getElem?_cons_succ]
      | some st =>
        have hbuild : (mergeBuild (msg :: rest) aIdx).2 =
            (mergeBuild rest (aIdx + 1)).2 ++ [(aIdx, st)] := by
          simp [mergeBuild, hsteps, hrole]
        rw [hbuild, hassist]
        rcases Nat.lt_trichotomy k aIdx with hk | hk | hk
        · have h0 : mapGetN (mergeBuild rest (aIdx + 1)).2 k = none := by
            rw [ih (aIdx + 1) k, if_pos (by omega)]
          rw [mapGetN_append_of_none _ h0, if_pos hk]
          simp only [mapGetN]
          rw [if_neg (by omega)]
        · have h0 : mapGetN (mergeBuild rest (aIdx + 1)).2 k = none := by
            rw [ih (aIdx + 1) k, if_pos (by omega)]
          rw [mapGetN_append_of_none _ h0, if_neg (by omega)]
          have h1 : k - aIdx = 0 := by omega
          rw [h1]
          simp only [mapGetN]
          rw [if_pos (by omega)]
          simp [hsteps]
        · have hih := ih (aIdx + 1) k
          rw [if_neg (by omega)] at hih
          rw [if_neg (by omega)]
          have h1 : k - aIdx = (k - (aIdx + 1)) + 1 := by omega
          rw [h1, List.getElem?_cons_succ]
          cases hv : ((assistantsOf rest)[k - (aIdx + 1)]?).bind (fun m => m.steps) with
          | none =>
            rw [mapGetN_append_of_none _ (hih.trans hv)]
            simp only [mapGetN]
            rw [if_neg (by omega)]
          | some v =>
            rw [mapGetN_append_of_some _ (hih.trans hv)]
    · have hassist : assistantsOf (msg :: rest) = assistantsOf rest := by
        simp [assistantsOf, hrole]
      have hbuild : (mergeBuild (msg :: rest) aIdx).2 = (mergeBuild rest aIdx).2 := by
        cases hsteps : msg.steps with
        | none => simp [mergeBuild, hsteps, hrole]
        | some st => simp [mergeBuild, hsteps, hrole]
      rw [hbuild, ih aIdx k, hassist]

theorem providesSteps_cons (msg : EnhancedMessage) (rest : List EnhancedMessage) (key : String) :
    providesSteps (msg :: rest) key =
      ((msg.steps.isSome && validId msg.id && decide (msg.id = key)) || providesSteps rest key) := by
  simp [providesSteps]

theorem mapGetS_mergeBuild_of_not_provides :
    ∀ (prev : List EnhancedMessage) (aIdx : Nat) (key : String),
    providesSteps prev key = false → mapGetS (mergeBuild prev aIdx).1 key = none := by
  intro prev
  induction prev with
  | nil => intro aIdx key _; simp [mergeBuild, mapGetS]
  | cons msg rest ih =>
    intro aIdx key h
    rw [providesSteps_cons, Bool.or_eq_false_iff] at h
    cases hsteps : msg.steps with
    | none =>
      have hbuild : (mergeBuild (msg :: rest) aIdx).1 =
          (mergeBuild rest (if msg.role = Role.assistant then aIdx + 1 else aIdx)).1 := by
        simp [mergeBuild, hsteps]
      rw [hbuild]
      exact ih _ key h.2
    | some st =>
      by_cases hvalid : validId msg.id = true
      · have hne : ¬(msg.id = key) := by
          intro he
          rw [hsteps, hvalid, he] at h
          simp at h
        have hbuild : (mergeBuild (msg :: rest) aIdx).1 =
            (mergeBuild rest (if msg.role = Role.assistant then aIdx + 1 else aIdx)).1 ++
              [(msg.id, st)] := by
          simp [mergeBuild, hsteps, hvalid]
        rw [hbuild, mapGetS_append_of_none _ (ih _ key h.2)]
        simp only [mapGetS]
        rw [if_neg hne]
      · have hbuild : (mergeBuild (msg :: rest) aIdx).1 =
            (mergeBuild rest (if msg.role = Role.assistant then aIdx + 1 else aIdx)).1 := by
          simp [mergeBuild, hsteps, hvalid]
        rw [hbuild]
        exact ih _ key h.2

theorem providesSteps_of_getElem? {prev : List EnhancedMessage} {j : Nat}
    {M2 : EnhancedMessage} (hj : prev[j]? = some M2) (hsteps : M2.steps.isSome = true)
    (hvalid : validId M2.id = true) : providesSteps prev M2.id = true := by
  rw [providesSteps, List.any_eq_true]
  exact ⟨M2, List.getElem?_mem hj, by simp [hsteps, hvalid]⟩

theorem getElem?_of_mem_exists {α : Type} {a : α} {l : List α} (h : a ∈ l) :
    ∃ i : Nat, l[i]? = some a := by
  obtain ⟨i, hi, rfl⟩ := List.getElem_of_mem h
  exact ⟨i, by simp [hi]⟩

theorem mapGetS_mergeBuild_of_unique :
    ∀ (prev : List EnhancedMessage) (aIdx : Nat) (i : Nat) (M : EnhancedMessage)
      (l : List StepData),
    prev[i]? = some M → M.steps = some l → validId M.id = true →
    (∀ (j : Nat) (M2 : EnhancedMessage), prev[j]? = some M2 → M2.id = M.id → j = i) →
    mapGetS (mergeBuild prev aIdx).1 M.id = some l := by
  intro prev
  induction prev with
  | nil => intro aIdx i M l hi; simp at hi
  | cons msg rest ih =>
    intro aIdx i M l hi hsteps hvalid huniq
    cases i with
    | zero =>
      have hM : msg = M := by simpa using hi
      subst hM
      have hnone : providesSteps rest msg.id = false := by
        by_contra hcon
        rw [Bool.not_eq_false, providesSteps, List.any_eq_true] at hcon
        obtain ⟨m, hmem, hm⟩ := hcon
        obtain ⟨j, hj⟩ := getElem?_of_mem_exists hmem
        simp only [Bool.and_eq_true, decide_eq_true_eq] at hm
        have := huniq (j + 1) m (by simpa using hj) hm.2
        simp at this
      have hbuild : (mergeBuild (msg :: rest) aIdx).1 =
          (mergeBuild rest (if msg.role = Role.assistant then aIdx + 1 else aIdx)).1 ++
            [(msg.id, l)] := by
        simp [mergeBuild, hsteps, hvalid]
      rw [hbuild, mapGetS_append_of_none _ (mapGetS_mergeBuild_of_not_provides _ _ _ hnone)]
      simp [mapGetS]
    | succ i' =>
      have hi' : rest[i']? = some M := by simpa using hi
      have hne : ¬(msg.id = M.id) := by
        intro he
        have := huniq 0 msg (by simp) he
        simp at this
      have huniq' : ∀ (j : Nat) (M2 : EnhancedMessage), rest[j]? = some M2 → M2.id = M.id →
          j = i' := by
        intro j M2 hj hid
        have := huniq (j + 1) M2 (by simpa using hj) hid
        omega
      have hrec := ih (if msg.role = Role.assistant then aIdx + 1 else aIdx) i' M l hi'
        hsteps hvalid huniq'
      cases hmsteps : msg.steps with
      | none =>
        have hbuild : (mergeBuild (msg :: rest) aIdx).1 =
            (mergeBuild rest (if msg.role = Role.assistant then aIdx + 1 else aIdx)).1 := by
          simp [mergeBuild, hmsteps]
        rw [hbuild]
        exact hrec
      | some st =>
        by_cases hmvalid : validId msg.id = true
        · have hbuild : (mergeBuild (msg :: rest) aIdx).1 =
              (mergeBuild rest (if msg.role = Role.assistant then aIdx + 1 else aIdx)).1 ++
                [(msg.id, st)] := by
            simp [mergeBuild, hmsteps, hmvalid]
          rw [hbuild, mapGetS_append_of_some _ hrec]
        · have hbuild : (mergeBuild (msg :: rest) aIdx).1 =
              (mergeBuild rest (if msg.role = Role.assistant then aIdx + 1 else aIdx)).1 := by
            simp [mergeBuild, hmsteps, hmvalid]
          rw [hbuild]
          exact hrec

theorem mergeBuild_byId_value :
    ∀ (prev : List EnhancedMessage) (aIdx : Nat) (key : String) (l : List StepData),
    mapGetS (mergeBuild prev aIdx).1 key = some l → ∃ m, m ∈ prev ∧ m.steps = some l := by
  intro prev
  induction prev with
  | nil => intro aIdx key l h; simp [mergeBuild, mapGetS] at h
  | cons msg rest ih =>
    intro aIdx key l h
    cases hsteps : msg.steps with
    | none =>
      rw [show (mergeBuild (msg :: rest) aIdx).1 =
          (mergeBuild rest (if msg.role = Role.assistant then aIdx + 1 else aIdx)).1 from
        by simp [mergeBuild, hsteps]] at h
      obtain ⟨m, hmem, hl⟩ := ih _ key l h
      exact ⟨m, List.mem_cons_of_mem _ hmem, hl⟩
    | some st =>
      by_cases hvalid : validId msg.id = true
      · rw [show (mergeBuild (msg :: rest) aIdx).1 =
            (mergeBuild rest (if msg.role = Role.assistant then aIdx + 1 else aIdx)).1 ++
              [(msg.id, st)] from by simp [mergeBuild, hsteps, hvalid]] at h
        cases hx : mapGetS (mergeBuild rest
            (if msg.role = Role.assistant then aIdx + 1 else aIdx)).1 key with
        | some v =>
          rw [mapGetS_append_of_some _ hx] at h
          obtain ⟨m, hmem, hl⟩ := ih _ key v hx
          cases h
          exact ⟨m, List.mem_cons_of_mem _ hmem, hl⟩
        | none =>
          rw [mapGetS_append_of_none _ hx] at h
          simp only [mapGetS] at h
          by_cases he : msg.id = key
          · rw [if_pos he] at h
            cases h
            exact ⟨msg, List.mem_cons_self _ _, hsteps⟩
          · rw [if_neg he] at h
            simp [mapGetS] at h
      · rw [show (mergeBuild (msg :: rest) aIdx).1 =
            (mergeBuild rest (if msg.role = Role.assistant then aIdx + 1 else aIdx)).1 from
          by simp [mergeBuild, hsteps, hvalid]] at h
        obtain ⟨m, hmem, hl⟩ := ih _ key l h
        exact ⟨m, List.mem_cons_of_mem _ hmem, hl⟩

theorem mergeBuild_byPos_value
    (prev : List EnhancedMessage) (aIdx k : Nat) (l : List StepData)
    (h : mapGetN (mergeBuild prev aIdx).2 k = some l) : ∃ m, m ∈ prev ∧ m.steps = some l := by
  rw [mapGetN_mergeBuild] at h
  by_cases hk : k < aIdx
  · rw [if_pos hk] at h; cases h
  · rw [if_neg hk] at h
    obtain ⟨m, hm, hl⟩ := Option.bind_eq_some.mp h
    exact ⟨m, List.mem_of_mem_filter (List.getElem?_mem hm), hl⟩

/-! ### Characterizing the merge walk -/

/-- The number of assistant-role messages of a snapshot prefix that the
id map does not match: the value of `currentAssistantIndex` after the
walk has passed that prefix. -/

theorem mergeWalk_getElem?_of_id_hit
    (byId : List (String × List StepData)) (byPos : List (Nat × List StepData)) :
    ∀ (snap : List SnapMessage) (cIdx j : Nat) (m : SnapMessage) (l : List StepData),
    snap[j]? = some m → mapGetS byId m.id = some l →
    (mergeWalk byId byPos snap cIdx)[j]? =
      some { id := m.id, role := m.role, content := m.content, steps := some l } := by
  intro snap
  induction snap with
  | nil => intro cIdx j m l hj; simp at hj
  | cons m0 rest ih =>
    intro cIdx j m l hj hhit
    cases j with
    | zero =>
      have hm : m0 = m := by simpa using hj
      subst hm
      simp only [mergeWalk, hhit, List.getElem?_cons_zero]
    | succ j' =>
      have hj' : rest[j']? = some m := by simpa using hj
      cases hx : mapGetS byId m0.id with
      | some v =>
        simp only [mergeWalk, hx, List.getElem?_cons_succ]
        exact ih cIdx j' m l hj' hhit
      | none =>
        by_cases hrole : m0.role = Role.assistant
        · cases hp : mapGetN byPos cIdx with
          | some w =>
            simp only [mergeWalk, hx, if_pos hrole, hp, List.getElem?_cons_succ]
            exact ih (cIdx + 1) j' m l hj' hhit
          | none =>
            simp only [mergeWalk, hx, if_pos hrole, hp, List.getElem?_cons_succ]
            exact ih (cIdx + 1) j' m l hj' hhit
        · simp only [mergeWalk, hx, if_neg hrole, List.getElem?_cons_succ]
          exact ih cIdx j' m l hj' hhit

theorem mergeWalk_getElem?_of_id_miss_assistant
    (byId : List (String × List StepData)) (byPos : List (Nat × List StepData)) :
    ∀ (snap : List SnapMessage) (cIdx j : Nat) (m : SnapMessage),
    snap[j]? = some m → mapGetS byId m.id = none → m.role = Role.assistant →
    (mergeWalk byId byPos snap cIdx)[j]? =
      some { id := m.id, role := m.role, content := m.content,
             steps := mapGetN byPos (cIdx + unmatchedCount byId (snap.take j)) } := by
  intro snap
  induction snap with
  | nil => intro cIdx j m hj; simp at hj
  | cons m0 rest ih =>
    intro cIdx j m hj hmiss hrole
    cases j with
    | zero =>
      have hm : m0 = m := by simpa using hj
      subst hm
      simp only [List.take_zero, unmatchedCount, List.filter_nil, List.length_nil, Nat.add_zero]
      cases hp : mapGetN byPos cIdx with
      | some w => simp only [mergeWalk, hmiss, if_pos hrole, hp, List.getElem?_cons_zero]
      | none => simp only [mergeWalk, hmiss, if_pos hrole, hp, List.getElem?_cons_zero]
    | succ j' =>
      have hj' : rest[j']? = some m := by simpa using hj
      have htake : (m0 :: rest).take (j' + 1) = m0 :: rest.take j' := rfl
      cases hx : mapGetS byId m0.id with
      | some v =>
        have hcount : unmatchedCount byId ((m0 :: rest).take (j' + 1)) =
            unmatchedCount byId (rest.take j') := by
          rw [htake, unmatchedCount, List.filter_cons]
          simp [hx, unmatchedCount]
        simp only [mergeWalk, hx, List.getElem?_cons_succ, hcount]
        exact ih cIdx j' m hj' hmiss hrole
      | none =>
        by_cases hrole0 : m0.role = Role.assistant
        · have hcount : unmatchedCount byId ((m0 :: rest).take (j' + 1)) =
              unmatchedCount byId (rest.take j') + 1 := by
            rw [htake, unmatchedCount, List.filter_cons]
            simp [hx, hrole0, unmatchedCount]
          have harith : cIdx + (unmatchedCount byId (rest.take j') + 1) =
              (cIdx + 1) + unmatchedCount byId (rest.take j') := by omega
          cases hp : mapGetN byPos cIdx with
          | some w =>
            simp only [mergeWalk, hx, if_pos hrole0, hp, List.getElem?_cons_succ, hcount, harith]
            exact ih (cIdx + 1) j' m hj' hmiss hrole
          | none =>
            simp only [mergeWalk, hx, if_pos hrole0, hp, List.getElem?_cons_succ, hcount, harith]
            exact ih (cIdx + 1) j' m hj' hmiss hrole
        · have hcount : unmatchedCount byId ((m0 :: rest).take (j' + 1)) =
              unmatchedCount byId (rest.take j') := by
            rw [htake, unmatchedCount, List.filter_cons]
            simp [hrole0, unmatchedCount]
          simp only [mergeWalk, hx, if_neg hrole0, List.getElem?_cons_succ, hcount]
          exact ih cIdx j' m hj' hmiss hrole

theorem mergeWalk_getElem?_of_id_miss_other
    (byId : List (String × List StepData)) (byPos : List (Nat × List StepData)) :
    ∀ (snap : List SnapMessage) (cIdx j : Nat) (m : SnapMessage),
    snap[j]? = some m → mapGetS byId m.id = none → ¬(m.role = Role.assistant) →
    (mergeWalk byId byPos snap cIdx)[j]? =
      some { id := m.id, role := m.role, content := m.content, steps := none } := by
  intro snap
  induction snap with
  | nil => intro cIdx j m hj; simp at hj
  | cons m0 rest ih =>
    intro cIdx j m hj hmiss hrole
    cases j with
    | zero =>
      have hm : m0 = m := by simpa using hj
      subst hm
      simp only [mergeWalk, hmiss, if_neg hrole, List.getElem?_cons_zero]
    | succ j' =>
      have hj' : rest[j']? = some m := by simpa using hj
      cases hx : mapGetS byId m0.id with
      | some v =>
        simp only [mergeWalk, hx, List.getElem?_cons_succ]
        exact ih cIdx j' m hj' hmiss hrole
      | none =>
        by_cases hrole0 : m0.role = Role.assistant
        · cases hp : mapGetN byPos cIdx with
          | some w =>
            simp only [mergeWalk, hx, if_pos hrole0, hp, List.getElem?_cons_succ]
            exact ih (cIdx + 1) j' m hj' hmiss hrole
          | none =>
            simp only [mergeWalk, hx, if_pos hrole0, hp, List.getElem?_cons_succ]
            exact ih (cIdx + 1) j' m hj' hmiss hrole
        · simp only [mergeWalk, hx, if_neg hrole0, List.getElem?_cons_succ]
          exact ih cIdx j' m hj' hmiss hrole

theorem mergeWalk_map_id (byId : List (String × List StepData))
    (byPos : List (Nat × List StepData)) :
    ∀ (snap : List SnapMessage) (cIdx : Nat),
    (mergeWalk byId byPos snap cIdx).map (fun m => m.id) = snap.map (fun m => m.id) := by
  intro snap
  induction snap with
  | nil => intro cIdx; simp [mergeWalk]
  | cons m0 rest ih =>
    intro cIdx
    cases hx : mapGetS byId m0.id with
    | some v => simp only [mergeWalk, hx, List.map_cons, ih cIdx]
    | none =>
      by_cases hrole0 : m0.role = Role.assistant
      · cases hp : mapGetN byPos cIdx with
        | some w => simp only [mergeWalk, hx, if_pos hrole0, hp, List.map_cons, ih (cIdx + 1)]
        | none => simp only [mergeWalk, hx, if_pos hrole0, hp, List.map_cons, ih (cIdx + 1)]
      · simp only [mergeWalk, hx, if_neg hrole0, List.map_cons, ih cIdx]

theorem mergeWalk_steps_source (byId : List (String × List StepData))
    (byPos : List (Nat × List StepData)) :
    ∀ (snap : List SnapMessage) (cIdx : Nat) (m2 : EnhancedMessage),
    m2 ∈ mergeWalk byId byPos snap cIdx →
    m2.steps = none ∨
      (∃ l, m2.steps = some l ∧
        ((∃ key, mapGetS byId key = some l) ∨ (∃ k, mapGetN byPos k = some l))) := by
  intro snap
  induction snap with
  | nil => intro cIdx m2 hmem; simp [mergeWalk] at hmem
  | cons m0 rest ih =>
    intro cIdx m2 hmem
    cases hx : mapGetS byId m0.id with
    | some v =>
      rw [show mergeWalk byId byPos (m0 :: rest) cIdx =
          { id := m0.id, role := m0.role, content := m0.content, steps := some v } ::
            mergeWalk byId byPos rest cIdx from by simp [mergeWalk, hx]] at hmem
      rcases List.mem_cons.mp hmem with hv | hv
      · exact Or.inr ⟨v, by rw [hv], Or.inl ⟨m0.id, hx⟩⟩
      · exact ih cIdx m2 hv
    | none =>
      by_cases hrole0 : m0.role = Role.assistant
      · cases hp : mapGetN byPos cIdx with
        | some w =>
          rw [show mergeWalk byId byPos (m0 :: rest) cIdx =
              { id := m0.id, role := m0.role, content := m0.content, steps := some w } ::
                mergeWalk byId byPos rest (cIdx + 1) from
            by simp [mergeWalk, hx, hrole0, hp]] at hmem
          rcases List.mem_cons.mp hmem with hv | hv
          · exact Or.inr ⟨w, by rw [hv], Or.inr ⟨cIdx, hp⟩⟩
          · exact ih (cIdx + 1) m2 hv
        | none =>
          rw [show mergeWalk byId byPos (m0 :: rest) cIdx =
              { id := m0.id, role := m0.role, content := m0.content, steps := none } ::
                mergeWalk byId byPos rest (cIdx + 1) from
            by simp [mergeWalk, hx, hrole0, hp]] at hmem
          rcases List.mem_cons.mp hmem with hv | hv
          · exact Or.inl (by rw [hv])
          · exact ih (cIdx + 1) m2 hv
      · rw [show mergeWalk byId byPos (m0 :: rest) cIdx =
            { id := m0.id, role := m0.role, content := m0.content, steps := none } ::
              mergeWalk byId byPos rest cIdx from by simp [mergeWalk, hx, hrole0]] at hmem
        rcases List.mem_cons.mp hmem with hv | hv
        · exact Or.inl (by rw [hv])
        · exact ih cIdx m2 hv

/-! ### Branch lemmas for the handlers -/

theorem onText_eq_update {freshId : String} {buffer delta : Option String}
    {msgs : List EnhancedMessage} {lm : EnhancedMessage}
    (hlast : msgs.getLast? = some lm) (hrole : lm.role = Role.assistant) :
    onTextMessageContentEvent freshId buffer delta msgs =
      msgs.dropLast ++ [{ lm with content := resolveContentJs buffer delta lm.content }] := by
  simp [onTextMessageContentEvent, hlast, hrole]

theorem onText_eq_push_empty {freshId : String} {buffer delta : Option String}
    {msgs : List EnhancedMessage} (hlast : msgs.getLast? = none) :
    onTextMessageContentEvent freshId buffer delta msgs =
      msgs ++ [{ id := freshId, role := Role.assistant,
                 content := pushContentJs buffer delta, steps := none }] := by
  simp [onTextMessageContentEvent, hlast]

theorem onText_eq_push_other {freshId : String} {buffer delta : Option String}
    {msgs : List EnhancedMessage} {lm : EnhancedMessage}
    (hlast : msgs.getLast? = some lm) (hrole : ¬(lm.role = Role.assistant)) :
    onTextMessageContentEvent freshId buffer delta msgs =
      msgs ++ [{ id := freshId, role := Role.assistant,
                 content := pushContentJs buffer delta, steps := none }] := by
  simp [onTextMessageContentEvent, hlast, hrole]

theorem onStepStarted_eq_update {freshId wire : String}
    {msgs : List EnhancedMessage} {lm : EnhancedMessage}
    (hlast : msgs.getLast? = some lm) (hrole : lm.role = Role.assistant) :
    onStepStartedEvent freshId wire msgs =
      msgs.dropLast ++ [{ lm with steps := some (lm.steps.getD [] ++ [mkRunningStep wire]) }] := by
  simp [onStepStartedEvent, hlast, hrole]

theorem onStepStarted_eq_push_empty {freshId wire : String}
    {msgs : List EnhancedMessage} (hlast : msgs.getLast? = none) :
    onStepStartedEvent freshId wire msgs = msgs ++ [newStepMessage freshId wire] := by
  simp [onStepStartedEvent, hlast]

theorem onStepStarted_eq_push_other {freshId wire : String}
    {msgs : List EnhancedMessage} {lm : EnhancedMessage}
    (hlast : msgs.getLast? = some lm) (hrole : ¬(lm.role = Role.assistant)) :
    onStepStartedEvent freshId wire msgs = msgs ++ [newStepMessage freshId wire] := by
  simp [onStepStartedEvent, hlast, hrole]

theorem onStepFinished_eq_update {wire : String}
    {msgs : List EnhancedMessage} {lm : EnhancedMessage} {steps : List StepData}
    (hlast : msgs.getLast? = some lm) (hsteps : lm.steps = some steps)
    (hrole : lm.role = Role.assistant) :
    onStepFinishedEvent wire msgs =
      msgs.dropLast ++
        [{ lm with steps := some (steps.map (completeStep (decodeStep wire).1)) }] := by
  simp [onStepFinishedEvent, hlast, hsteps, hrole]

theorem onStepFinished_eq_noop_empty {wire : String} {msgs : List EnhancedMessage}
    (hlast : msgs.getLast? = none) : onStepFinishedEvent wire msgs = msgs := by
  simp [onStepFinishedEvent, hlast]

theorem onStepFinished_eq_noop_nosteps {wire : String} {msgs : List EnhancedMessage}
    {lm : EnhancedMessage} (hlast : msgs.getLast? = some lm) (hsteps : lm.steps = none) :
    onStepFinishedEvent wire msgs = msgs := by
  simp [onStepFinishedEvent, hlast, hsteps]

theorem onStepFinished_eq_noop_other {wire : String} {msgs : List EnhancedMessage}
    {lm : EnhancedMessage} {steps : List StepData} (hlast : msgs.getLast? = some lm)
    (hsteps : lm.steps = some steps) (hrole : ¬(lm.role = Role.assistant)) :
    onStepFinishedEvent wire msgs = msgs := by
  simp [onStepFinishedEvent, hlast, hsteps, hrole]

theorem applyTailRule_false (prev result : List EnhancedMessage) :
    applyTailRule prev false result = result := rfl

theorem applyTailRule_true_some_some {prev result : List EnhancedMessage}
    {lr lp : EnhancedMessage} (hr : result.getLast? = some lr) (hp : prev.getLast? = some lp) :
    applyTailRule prev true result =
      if lr.role = Role.assistant ∧ lp.role = Role.assistant ∧
          lp.steps.isSome = true ∧ lr.steps = none then
        result.dropLast ++ [{ lr with steps := lp.steps }]
      else result := by
  simp [applyTailRule, hr, hp]

theorem applyTailRule_true_result_empty {prev result : List EnhancedMessage}
    (hr : result.getLast? = none) : applyTailRule prev true result = result := by
  simp [applyTailRule, hr]

theorem applyTailRule_true_prev_empty {prev result : List EnhancedMessage}
    (hp : prev.getLast? = none) : applyTailRule prev true result = result := by
  cases hr : result.getLast? with
  | none => simp [applyTailRule, hr]
  | some lr => simp [applyTailRule, hr, hp]

theorem idsOf_dropLast_concat {msgs : List EnhancedMessage} {lm m2 : EnhancedMessage}
    (hlast : msgs.getLast? = some lm) (hid : m2.id = lm.id) :
    idsOf (msgs.dropLast ++ [m2]) = idsOf msgs := by
  conv_rhs => rw [← dropLast_concat_getLast?' hlast]
  simp [idsOf, hid]

theorem idsOf_applyTailRule (prev : List EnhancedMessage) (running : Bool)
    (result : List EnhancedMessage) :
    idsOf (applyTailRule prev running result) = idsOf result := by
  cases running with
  | false => rw [applyTailRule_false]
  | true =>
    cases hr : result.getLast? with
    | none => rw [applyTailRule_true_result_empty hr]
    | some lr =>
      cases hp : prev.getLast? with
      | none => rw [applyTailRule_true_prev_empty hp]
      | some lp =>
        rw [applyTailRule_true_some_some hr hp]
        by_cases hcond : lr.role = Role.assistant ∧ lp.role = Role.assistant ∧
            lp.steps.isSome = true ∧ lr.steps = none
        · rw [if_pos hcond]
          exact idsOf_dropLast_concat hr rfl
        · rw [if_neg hcond]

theorem idsOf_mergeMessages (prev : List EnhancedMessage) (snap : List SnapMessage)
    (running : Bool) :
    idsOf (mergeMessages prev snap running) = snap.map (fun m => m.id) := by
  rw [mergeMessages, idsOf_applyTailRule, mergeWalkTop, idsOf,
    mergeWalk_map_id]

theorem idsOf_onTextMessageContentEvent (freshId : String) (buffer delta : Option String)
    (msgs : List EnhancedMessage) :
    idsOf (onTextMessageContentEvent freshId buffer delta msgs) = idsOf msgs ∨
      idsOf (onTextMessageContentEvent freshId buffer delta msgs) = idsOf msgs ++ [freshId] := by
  cases hlast : msgs.getLast? with
  | none =>
    rw [onText_eq_push_empty hlast]
    right; simp [idsOf]
  | some lm =>
    by_cases hrole : lm.role = Role.assistant
    · rw [onText_eq_update hlast hrole]
      exact Or.inl (idsOf_dropLast_concat hlast rfl)
    · rw [onText_eq_push_other hlast hrole]
      right; simp [idsOf]

theorem idsOf_onStepStartedEvent (freshId wire : String) (msgs : List EnhancedMessage) :
    idsOf (onStepStartedEvent freshId wire msgs) = idsOf msgs ∨
      idsOf (onStepStartedEvent freshId wire msgs) = idsOf msgs ++ [freshId] := by
  cases hlast : msgs.getLast? with
  | none =>
    rw [onStepStarted_eq_push_empty hlast]
    right; simp [idsOf, newStepMessage]
  | some lm =>
    by_cases hrole : lm.role = Role.assistant
    · rw [onStepStarted_eq_update hlast hrole]
      exact Or.inl (idsOf_dropLast_concat hlast rfl)
    · rw [onStepStarted_eq_push_other hlast hrole]
      right; simp [idsOf, newStepMessage]

theorem idsOf_onStepFinishedEvent (wire : String) (msgs : List EnhancedMessage) :
    idsOf (onStepFinishedEvent wire msgs) = idsOf msgs := by
  cases hlast : msgs.getLast? with
  | none => rw [onStepFinished_eq_noop_empty hlast]
  | some lm =>
    cases hsteps : lm.steps with
    | none => rw [onStepFinished_eq_noop_nosteps hlast hsteps]
    | some steps =>
      by_cases hrole : lm.role = Role.assistant
      · rw [onStepFinished_eq_update hlast hsteps hrole]
        exact idsOf_dropLast_concat hlast rfl
      · rw [onStepFinished_eq_noop_other hlast hsteps hrole]

/-! ### Subsequences of id lists -/

/-- Greedy subsequence test: `isSubseq p l` holds when the elements of
`p` occur in `l` in order.  With `p = [x, y]` this states that `x`
occurs before `y` in `l`. -/

theorem isSubseq_append_right : ∀ (p l l2 : List String),
    isSubseq p l = true → isSubseq p (l ++ l2) = true := by
  intro p l
  induction l generalizing p with
  | nil =>
    intro l2 h
    cases p with
    | nil => simp [isSubseq]
    | cons x xs => simp [isSubseq] at h
  | cons y ys ih =>
    intro l2 h
    cases p with
    | nil => simp [isSubseq]
    | cons x xs =>
      by_cases hxy : x = y
      · rw [isSubseq, if_pos hxy] at h
        simp only [List.cons_append, isSubseq, if_pos hxy]
        exact ih xs l2 h
      · rw [isSubseq, if_neg hxy] at h
        simp only [List.cons_append, isSubseq, if_neg hxy]
        exact ih (x :: xs) l2 h

/-! ### Index-preservation helpers for the last-element update pattern -/

theorem getElem?_update_last_map {β : Type} (f : EnhancedMessage → β)
    {msgs : List EnhancedMessage} {lm x m : EnhancedMessage} {i : Nat}
    (hlast : msgs.getLast? = some lm) (hi : msgs[i]? = some m) (hfx : f x = f lm) :
    ((msgs.dropLast ++ [x])[i]?).map f = some (f m) := by
  have hlen : i < msgs.length := (List.getElem?_eq_some.mp hi).1
  rw [getElem?_dropLast_concat msgs x i hlen]
  by_cases hend : i + 1 = msgs.length
  · have hm : m = lm := by
      rw [List.getLast?_eq_getElem?] at hlast
      have h2 : msgs[i]? = some lm := by
        rw [show i = msgs.length - 1 from by omega]
        exact hlast
      rw [hi] at h2
      exact (Option.some.injEq _ _ ▸ h2)
    rw [if_pos hend]
    simp [hfx, hm]
  · rw [if_neg hend, hi]
    rfl

theorem getElem?_push_map {β : Type} (f : EnhancedMessage → β)
    {msgs : List EnhancedMessage} {m : EnhancedMessage} {i : Nat} (x : EnhancedMessage)
    (hi : msgs[i]? = some m) :
    ((msgs ++ [x])[i]?).map f = some (f m) := by
  have hlen : i < msgs.length := (List.getElem?_eq_some.mp hi).1
  rw [getElem?_concat_left msgs [x] i hlen, hi]
  rfl

/-! ### The spec-side content resolution (for the refinement claim C3)

`specResolveContent` and `specPushContent` are written from the words of
the specification ("prefer the cumulative buffer if non-empty; otherwise
append the incremental delta to the existing content of the open
message; if neither is present, treat as no-op", and "`content` =
whichever of the two values is available, cumulative buffer takes
precedence"), to be compared with the code-side functions. -/

/-- Spec wording: append the incremental delta to the existing content
when a delta is present, otherwise keep the content unchanged. -/

theorem appendDeltaJs_eq_spec (delta : Option String) (existing : String) :
    appendDeltaJs delta existing = specAppendOrKeep delta existing := by
  cases delta with
  | none => rfl
  | some d =>
    by_cases hd : d = ""
    · subst hd
      simp [appendDeltaJs, specAppendOrKeep, String.append_empty]
    · simp [appendDeltaJs, specAppendOrKeep, hd]

theorem resolveContentJs_eq_spec (buffer delta : Option String) (existing : String) :
    resolveContentJs buffer delta existing = specResolveContent buffer delta existing := by
  cases buffer with
  | none => exact appendDeltaJs_eq_spec delta existing
  | some b =>
    by_cases hb : b = ""
    · simp only [resolveContentJs, specResolveContent, if_pos hb]
      exact appendDeltaJs_eq_spec delta existing
    · simp only [resolveContentJs, specResolveContent, if_neg hb]

theorem pushContentJs_eq_spec (buffer delta : Option String) :
    pushContentJs buffer delta = specPushContent buffer delta := by
  cases buffer with
  | none => cases delta <;> rfl
  | some b =>
    by_cases hb : b = ""
    · simp only [pushContentJs, specPushContent, if_pos hb]
      cases delta <;> rfl
    · simp only [pushContentJs, specPushContent, if_neg hb]

/-- Claim C3 (confirmed): a `TextDelta` event resolves the new content of
the open assistant message as the non-empty cumulative buffer, else the
existing content with the delta appended, else the existing content
unchanged; with no open assistant message it appends a new assistant
message whose content is the non-empty buffer, else the delta, else
empty, with no steps; and two consecutive deltas `"Hel"`, `"lo"` on an
empty transcript accumulate to `"Hello"`. -/

theorem c3_text_delta_resolution :
    (∀ (freshId : String) (buffer delta : Option String) (msgs : List EnhancedMessage)
      (lm : EnhancedMessage), msgs.getLast? = some lm → lm.role = Role.assistant →
      onTextMessageContentEvent freshId buffer delta msgs =
        msgs.dropLast ++ [{ lm with content := specResolveContent buffer delta lm.content }]) ∧
    (∀ (freshId : String) (buffer delta : Option String) (msgs : List EnhancedMessage),
      (∀ lm, msgs.getLast? = some lm → ¬(lm.role = Role.assistant)) →
      onTextMessageContentEvent freshId buffer delta msgs =
        msgs ++ [{ id := freshId, role := Role.assistant,
                   content := specPushContent buffer delta, steps := none }]) ∧
    applyEvents
        [("a1", Event.textDelta none (some "Hel")), ("a2", Event.textDelta none (some "lo"))]
        initialState =
      { messages := [{ id := "a1", role := Role.assistant, content := "Hello", steps := none }],
        isRunning := false, streamingText := none, error := none } := by
  refine ⟨?_, ?_, ?_⟩
  · intro freshId buffer delta msgs lm hlast hrole
    rw [onText_eq_update hlast hrole, resolveContentJs_eq_spec]
  · intro freshId buffer delta msgs hno
    cases hlast : msgs.getLast? with
    | none => rw [onText_eq_push_empty hlast, pushContentJs_eq_spec]
    | some lm => rw [onText_eq_push_other hlast (hno lm hlast), pushContentJs_eq_spec]
  · decide

/-- Claim C3, witness: the update branch evaluated on a one-message
transcript with a non-empty buffer. -/

theorem c3_witness :
    onTextMessageContentEvent "f" (some "Hi") none
        [{ id := "m", role := Role.assistant, content := "x", steps := none }] =
      ([{ id := "m", role := Role.assistant, content := "x", steps := none }] :
          List EnhancedMessage).dropLast ++
        [{ id := "m", role := Role.assistant,
           content := specResolveContent (some "Hi") none "x", steps := none }] :=
  c3_text_delta_resolution.1 "f" (some "Hi") none
    [{ id := "m", role := Role.assistant, content := "x", steps := none }]
    { id := "m", role := Role.assistant, content := "x", steps := none }
    (by decide) (by decide)

/-- Claim C5 (confirmed): a `TextDelta` event leaves every existing
message's step list unchanged, and a `StepStarted` or `StepFinished`
event leaves every existing message's content unchanged. -/

theorem c5_frame_independence :
    ∀ (freshId wire : String) (buffer delta : Option String) (msgs : List EnhancedMessage)
      (i : Nat) (m : EnhancedMessage), msgs[i]? = some m →
      ((onTextMessageContentEvent freshId buffer delta msgs)[i]?).map (fun x => x.steps) =
          some m.steps ∧
      ((onStepStartedEvent freshId wire msgs)[i]?).map (fun x => x.content) = some m.content ∧
      ((onStepFinishedEvent wire msgs)[i]?).map (fun x => x.content) = some m.content := by
  intro freshId wire buffer delta msgs i m hi
  refine ⟨?_, ?_, ?_⟩
  · cases hlast : msgs.getLast? with
    | none =>
      rw [onText_eq_push_empty hlast]
      exact getElem?_push_map _ _ hi
    | some lm =>
      by_cases hrole : lm.role = Role.assistant
      · rw [onText_eq_update hlast hrole]
        exact getElem?_update_last_map _ hlast hi rfl
      · rw [onText_eq_push_other hlast hrole]
        exact getElem?_push_map _ _ hi
  · cases hlast : msgs.getLast? with
    | none =>
      rw [onStepStarted_eq_push_empty hlast]
      exact getElem?_push_map _ _ hi
    | some lm =>
      by_cases hrole : lm.role = Role.assistant
      · rw [onStepStarted_eq_update hlast hrole]
        exact getElem?_update_last_map _ hlast hi rfl
      · rw [onStepStarted_eq_push_other hlast hrole]
        exact getElem?_push_map _ _ hi
  · cases hlast : msgs.getLast? with
    | none =>
      rw [onStepFinished_eq_noop_empty hlast, hi]
      rfl
    | some lm =>
      cases hsteps : lm.steps with
      | none =>
        rw [onStepFinished_eq_noop_nosteps hlast hsteps, hi]
        rfl
      | some steps =>
        by_cases hrole : lm.role = Role.assistant
        · rw [onStepFinished_eq_update hlast hsteps hrole]
          exact getElem?_update_last_map _ hlast hi rfl
        · rw [onStepFinished_eq_noop_other hlast hsteps hrole, hi]
          rfl

/-- Claim C5, witness: evaluated at a one-message transcript. -/
theorem c5_witness :
    ((onTextMessageContentEvent "f" none (some "hi")
        [{ id := "u", role := Role.user, content := "q", steps := none }])[0]?).map
          (fun x => x.steps) =
        some ({ id := "u", role := Role.user, content := "q",
                steps := none } : EnhancedMessage).steps ∧
    ((onStepStartedEvent "f" "X"
        [{ id := "u", role := Role.user, content := "q", steps := none }])[0]?).map
          (fun x => x.content) =
        some ({ id := "u", role := Role.user, content := "q",
                steps := none } : EnhancedMessage).content ∧
    ((onStepFinishedEvent "X"
        [{ id := "u", role := Role.user, content := "q", steps := none }])[0]?).map
          (fun x => x.content) =
        some ({ id := "u", role := Role.user, content := "q",
                steps := none } : EnhancedMessage).content :=
  c5_frame_independence "f" "X" none (some "hi")
    [{ id := "u", role := Role.user, content := "q", steps := none }] 0
    { id := "u", role := Role.user, content := "q", steps := none } (by decide)

/-- Claim C7, counterexample: `RunError("")` does not surface the empty
message verbatim — the falsy empty string is replaced by the fallback
text `'An error occurred'`. -/

theorem c7_counterexample :
    (applyEvent "f" (Event.runError "") initialState).error = some "An error occurred" ∧
    ¬((applyEvent "f" (Event.runError "") initialState).error = some "") := by
  decide

/-- Claim C7 (amended): `RunError(message)` stops the run, clears the
streaming buffer, leaves the transcript (and everything else in the
state) unchanged, and surfaces the message verbatim when it is
non-empty; an empty message is replaced by the fallback text
`'An error occurred'`. -/

theorem c7_amended_run_error :
    ∀ (freshId message : String) (s : AgentState),
    applyEvent freshId (Event.runError message) s =
      { s with error := some (if message = "" then "An error occurred" else message),
               isRunning := false, streamingText := none } := by
  intro freshId message s
  rfl

/-- Claim C2, counterexample: with two running steps both named `"X"` on
the last assistant message, `StepFinished("X")` completes both of them,
not only the first — the later running step with the same name does not
stay untouched. -/

theorem c2_counterexample :
    onStepFinishedEvent "X"
        [{ id := "m1", role := Role.assistant, content := "",
           steps := some [{ name := "X", text := "", status := StepStatus.running },
                          { name := "X", text := "", status := StepStatus.running }] }] =
      [{ id := "m1", role := Role.assistant, content := "",
         steps := some [{ name := "X", text := "", status := StepStatus.completed },
                        { name := "X", text := "", status := StepStatus.completed }] }] := by
  decide

/-- Claim C2 (amended): on a transcript whose last message is an
assistant message with a step list, `StepFinished` transitions every
step whose name equals the decoded name and whose status is `running` to
`completed` (not only the first such step), leaves all other steps
unchanged, and when no step matches the transcript is left entirely
unchanged. -/

theorem c2_amended_step_finished :
    ∀ (wire : String) (msgs : List EnhancedMessage) (lm : EnhancedMessage)
      (l : List StepData), msgs.getLast? = some lm → lm.role = Role.assistant →
      lm.steps = some l →
      (onStepFinishedEvent wire msgs =
        msgs.dropLast ++
          [{ lm with steps := some (l.map (completeStep (decodeStep wire).1)) }]) ∧
      (∀ (k : Nat) (st : StepData), l[k]? = some st →
        (l.map (completeStep (decodeStep wire).1))[k]? =
          some (if st.name = (decodeStep wire).1 ∧ st.status = StepStatus.running then
            { st with status := StepStatus.completed } else st)) ∧
      ((∀ st ∈ l, ¬(st.name = (decodeStep wire).1 ∧ st.status = StepStatus.running)) →
        onStepFinishedEvent wire msgs = msgs) := by
  intro wire msgs lm l hlast hrole hsteps
  refine ⟨onStepFinished_eq_update hlast hsteps hrole, ?_, ?_⟩
  · intro k st hk
    rw [List.getElem?_map, hk]
    rfl
  · intro hno
    have hmap : l.map (completeStep (decodeStep wire).1) = l := by
      calc l.map (completeStep (decodeStep wire).1) = l.map id :=
            List.map_congr_left (fun st hst => by
              rw [completeStep, if_neg (hno st hst)]; rfl)
        _ = l := List.map_id l
    rw [onStepFinished_eq_update hlast hsteps hrole, hmap]
    have hlm : { lm with steps := some l } = lm := by
      cases lm
      simp_all
    rw [hlm]
    exact dropLast_concat_getLast?' hlast

/-- Claim C2, witness: `StepFinished` with an unknown step name on a
one-step transcript is a no-op (the spec's Scenario D). -/

theorem c2_witness :
    onStepFinishedEvent "Idle"
        [{ id := "m", role := Role.assistant, content := "",
           steps := some [{ name := "A", text := "", status := StepStatus.running }] }] =
      [{ id := "m", role := Role.assistant, content := "",
         steps := some [{ name := "A", text := "", status := StepStatus.running }] }] :=
  (c2_amended_step_finished "Idle"
      [{ id := "m", role := Role.assistant, content := "",
         steps := some [{ name := "A", text := "", status := StepStatus.running }] }]
      { id := "m", role := Role.assistant, content := "",
        steps := some [{ name := "A", text := "", status := StepStatus.running }] }
      [{ name := "A", text := "", status := StepStatus.running }]
      (by decide) (by decide) (by decide)).2.2 (by decide)

/-- Claim C4 (confirmed): a merge performed while running copies the
previous last message's steps onto the merged last message exactly when
both transcripts are non-empty, both last messages are assistant-role,
the previous last carries steps and the merged last lacks them; in every
other case the merge returns exactly what the id-then-position matching
produced. -/

theorem c4_tail_preservation :
    ∀ (prev : List EnhancedMessage) (snap : List SnapMessage),
      (∀ (lr lp : EnhancedMessage),
        (mergeWalkTop prev snap).getLast? = some lr → prev.getLast? = some lp →
        lr.role = Role.assistant → lp.role = Role.assistant →
        lp.steps.isSome = true → lr.steps = none →
        mergeMessages prev snap true =
          (mergeWalkTop prev snap).dropLast ++ [{ lr with steps := lp.steps }]) ∧
      ((∀ (lr lp : EnhancedMessage),
        ¬((mergeWalkTop prev snap).getLast? = some lr ∧ prev.getLast? = some lp ∧
          lr.role = Role.assistant ∧ lp.role = Role.assistant ∧
          lp.steps.isSome = true ∧ lr.steps = none)) →
        mergeMessages prev snap true = mergeWalkTop prev snap) := by
  intro prev snap
  constructor
  · intro lr lp hr hp h1 h2 h3 h4
    rw [mergeMessages, applyTailRule_true_some_some hr hp, if_pos ⟨h1, h2, h3, h4⟩]
  · intro hno
    rw [mergeMessages]
    cases hr : (mergeWalkTop prev snap).getLast? with
    | none => exact applyTailRule_true_result_empty hr
    | some lr =>
      cases hp : prev.getLast? with
      | none => exact applyTailRule_true_prev_empty hp
      | some lp =>
        rw [applyTailRule_true_some_some hr hp, if_neg (fun hc =>
          hno lr lp ⟨hr, hp, hc.1, hc.2.1, hc.2.2.1, hc.2.2.2⟩)]

/-- Claim C4, witness: a mid-run snapshot whose only message gets no
steps from the matching pass, while the previous last assistant message
carries a step — the tail rule copies it over. -/

theorem c4_witness :
    mergeMessages
        [{ id := "a0", role := Role.assistant, content := "", steps := none },
         { id := "a1", role := Role.assistant, content := "",
           steps := some [{ name := "s", text := "", status := StepStatus.running }] }]
        [{ id := "z", role := Role.assistant, content := "c" }] true =
      (mergeWalkTop
          [{ id := "a0", role := Role.assistant, content := "", steps := none },
           { id := "a1", role := Role.assistant, content := "",
             steps := some [{ name := "s", text := "", status := StepStatus.running }] }]
          [{ id := "z", role := Role.assistant, content := "c" }]).dropLast ++
        [{ id := "z", role := Role.assistant, content := "c",
           steps := some [{ name := "s", text := "", status := StepStatus.running }] }] :=
  (c4_tail_preservation
      [{ id := "a0", role := Role.assistant, content := "", steps := none },
       { id := "a1", role := Role.assistant, content := "",
         steps := some [{ name := "s", text := "", status := StepStatus.running }] }]
      [{ id := "z", role := Role.assistant, content := "c" }]).1
    { id := "z", role := Role.assistant, content := "c", steps := none }
    { id := "a1", role := Role.assistant, content := "",
      steps := some [{ name := "s", text := "", status := StepStatus.running }] }
    (by decide) (by decide) (by decide) (by decide) (by decide) (by decide)

theorem mapGetS_mergeBuild_isSome_of_provides :
    ∀ (prev : List EnhancedMessage) (aIdx : Nat) (key : String),
    providesSteps prev key = true → (mapGetS (mergeBuild prev aIdx).1 key).isSome = true := by
  intro prev
  induction prev with
  | nil => intro aIdx key h; simp [providesSteps] at h
  | cons msg rest ih =>
    intro aIdx key h
    rw [providesSteps_cons, Bool.or_eq_true] at h
    rcases h with hhead | hrest
    · simp only [Bool.and_eq_true, decide_eq_true_eq, Option.isSome_iff_exists] at hhead
      obtain ⟨⟨⟨st, hst⟩, hvalid⟩, hkey⟩ := hhead
      have hbuild : (mergeBuild (msg :: rest) aIdx).1 =
          (mergeBuild rest (if msg.role = Role.assistant then aIdx + 1 else aIdx)).1 ++
            [(msg.id, st)] := by
        simp [mergeBuild, hst, hvalid]
      rw [hbuild]
      cases hx : mapGetS (mergeBuild rest
          (if msg.role = Role.assistant then aIdx + 1 else aIdx)).1 key with
      | some v => rw [mapGetS_append_of_some _ hx]; rfl
      | none =>
        rw [mapGetS_append_of_none _ hx]
        simp [mapGetS, hkey]
    · have hih := ih (if msg.role = Role.assistant then aIdx + 1 else aIdx) key hrest
      obtain ⟨v, hv⟩ := Option.isSome_iff_exists.mp hih
      cases hst : msg.steps with
      | none =>
        have hbuild : (mergeBuild (msg :: rest) aIdx).1 =
            (mergeBuild rest (if msg.role = Role.assistant then aIdx + 1 else aIdx)).1 := by
          simp [mergeBuild, hst]
        rw [hbuild, hv]
        rfl
      | some st =>
        by_cases hvalid : validId msg.id = true
        · have hbuild : (mergeBuild (msg :: rest) aIdx).1 =
              (mergeBuild rest (if msg.role = Role.assistant then aIdx + 1 else aIdx)).1 ++
                [(msg.id, st)] := by
            simp [mergeBuild, hst, hvalid]
          rw [hbuild, mapGetS_append_of_some _ hv]
          rfl
        · have hbuild : (mergeBuild (msg :: rest) aIdx).1 =
              (mergeBuild rest (if msg.role = Role.assistant then aIdx + 1 else aIdx)).1 := by
            simp [mergeBuild, hst, hvalid]
          rw [hbuild, hv]
          rfl

theorem mapGetS_mergeBuild_isNone (prev : List EnhancedMessage) (aIdx : Nat) (key : String) :
    (mapGetS (mergeBuild prev aIdx).1 key).isNone = !(providesSteps prev key) := by
  cases hp : providesSteps prev key
  · rw [mapGetS_mergeBuild_of_not_provides prev aIdx key hp]
    rfl
  · obtain ⟨v, hv⟩ :=
      Option.isSome_iff_exists.mp (mapGetS_mergeBuild_isSome_of_provides prev aIdx key hp)
    rw [hv]
    rfl

/-- The position used by the walk's fallback, stated over the previous
transcript: the rank of a snapshot message among the snapshot's
assistant-role messages that no previous message feeds by id. -/

theorem unmatchedRank_eq (prev : List EnhancedMessage) (snap : List SnapMessage) (j : Nat) :
    unmatchedCount (mergeBuild prev 0).1 (snap.take j) = unmatchedRank prev snap j := by
  rw [unmatchedCount, unmatchedRank]
  congr 1
  apply List.filter_congr
  intro m _
  rw [mapGetS_mergeBuild_isNone]

theorem mergeMessages_false_eq_walk (prev : List EnhancedMessage) (snap : List SnapMessage) :
    mergeMessages prev snap false = mergeWalkTop prev snap := rfl

/-- Claim C1, counterexample: `prev` holds assistant messages `"a"` (steps
named `p`) and `"b"` (steps named `q`); the snapshot holds assistant
messages `"a"` and `"c"`.  Message `"c"` sits at assistant position 1 and
its id matches nothing, so by the claim it should receive the steps of
the previous assistant at position 1 (`q`).  The code instead attaches
`p`: its fallback counter advances only past id-unmatched assistant
messages, and `"a"` was matched by id. -/

theorem c1_counterexample :
    (mergeMessages
        [{ id := "a", role := Role.assistant, content := "",
           steps := some [{ name := "p", text := "", status := StepStatus.running }] },
         { id := "b", role := Role.assistant, content := "",
           steps := some [{ name := "q", text := "", status := StepStatus.running }] }]
        [{ id := "a", role := Role.assistant, content := "" },
         { id := "c", role := Role.assistant, content := "" }] false).map (fun m => m.steps) =
      [some [{ name := "p", text := "", status := StepStatus.running }],
       some [{ name := "p", text := "", status := StepStatus.running }]] ∧
    ¬(some [({ name := "p", text := "", status := StepStatus.running } : StepData)] =
      some [({ name := "q", text := "", status := StepStatus.running } : StepData)]) := by
  decide

/-- Claim C1 (amended): in the id-then-position matching pass of a
resync merge (stated over `mergeMessages _ _ false`, whose tail rule is
inactive; the in-flight tail adjustment is claim C4), (1) a snapshot
message whose id equals the id of the unique previous message carrying
that id — steps present, non-placeholder id — receives exactly those
steps; (2) an assistant snapshot message matched by no id receives the
steps of the previous transcript's assistant at position equal to the
message's rank among the snapshot's id-unmatched assistant messages
(not its rank among all assistant messages); (3) a message found
neither by id nor by that position fallback is passed through
unchanged. -/

theorem c1_amended_merge_matching :
    (∀ (prev : List EnhancedMessage) (snap : List SnapMessage) (j : Nat) (m : SnapMessage)
      (i : Nat) (M : EnhancedMessage) (l : List StepData),
      snap[j]? = some m → prev[i]? = some M → M.steps = some l → validId M.id = true →
      (∀ (i2 : Nat) (M2 : EnhancedMessage), prev[i2]? = some M2 → M2.id = M.id → i2 = i) →
      m.id = M.id →
      (mergeMessages prev snap false)[j]? =
        some { id := m.id, role := m.role, content := m.content, steps := some l }) ∧
    (∀ (prev : List EnhancedMessage) (snap : List SnapMessage) (j : Nat) (m : SnapMessage)
      (l : List StepData),
      snap[j]? = some m → providesSteps prev m.id = false → m.role = Role.assistant →
      ((assistantsOf prev)[unmatchedRank prev snap j]?).bind (fun mm => mm.steps) = some l →
      (mergeMessages prev snap false)[j]? =
        some { id := m.id, role := m.role, content := m.content, steps := some l }) ∧
    (∀ (prev : List EnhancedMessage) (snap : List SnapMessage) (j : Nat) (m : SnapMessage),
      snap[j]? = some m → providesSteps prev m.id = false →
      (¬(m.role = Role.assistant) ∨
        ((assistantsOf prev)[unmatchedRank prev snap j]?).bind (fun mm => mm.steps) = none) →
      (mergeMessages prev snap false)[j]? =
        some { id := m.id, role := m.role, content := m.content, steps := none }) := by
  refine ⟨?_, ?_, ?_⟩
  · intro prev snap j m i M l hj hi hsteps hvalid huniq hid
    have hhit : mapGetS (mergeBuild prev 0).1 m.id = some l := by
      rw [hid]
      exact mapGetS_mergeBuild_of_unique prev 0 i M l hi hsteps hvalid huniq
    rw [mergeMessages_false_eq_walk, mergeWalkTop]
    exact mergeWalk_getElem?_of_id_hit _ _ snap 0 j m l hj hhit
  · intro prev snap j m l hj hprov hrole hpos
    have hmiss : mapGetS (mergeBuild prev 0).1 m.id = none :=
      mapGetS_mergeBuild_of_not_provides prev 0 m.id hprov
    rw [mergeMessages_false_eq_walk, mergeWalkTop,
      mergeWalk_getElem?_of_id_miss_assistant _ _ snap 0 j m hj hmiss hrole]
    have hlook : mapGetN (mergeBuild prev 0).2
        (0 + unmatchedCount (mergeBuild prev 0).1 (snap.take j)) = some l := by
      rw [Nat.zero_add, unmatchedRank_eq, mapGetN_mergeBuild, if_neg (by omega)]
      simpa using hpos
    rw [hlook]
  · intro prev snap j m hj hprov hdisj
    have hmiss : mapGetS (mergeBuild prev 0).1 m.id = none :=
      mapGetS_mergeBuild_of_not_provides prev 0 m.id hprov
    rcases hdisj with hnr | hnone
    · rw [mergeMessages_false_eq_walk, mergeWalkTop]
      exact mergeWalk_getElem?_of_id_miss_other _ _ snap 0 j m hj hmiss hnr
    · by_cases hrole : m.role = Role.assistant
      · rw [mergeMessages_false_eq_walk, mergeWalkTop,
          mergeWalk_getElem?_of_id_miss_assistant _ _ snap 0 j m hj hmiss hrole]
        have hlook : mapGetN (mergeBuild prev 0).2
            (0 + unmatchedCount (mergeBuild prev 0).1 (snap.take j)) = none := by
          rw [Nat.zero_add, unmatchedRank_eq, mapGetN_mergeBuild, if_neg (by omega)]
          simpa using hnone
        rw [hlook]
      · rw [mergeMessages_false_eq_walk, mergeWalkTop]
        exact mergeWalk_getElem?_of_id_miss_other _ _ snap 0 j m hj hmiss hrole

/-- Claim C1, witness: the id match evaluated on a one-message transcript
and a snapshot reusing the same id. -/

theorem c1_witness :
    (mergeMessages
        [{ id := "a", role := Role.assistant, content := "x",
           steps := some [{ name := "p", text := "", status := StepStatus.running }] }]
        [{ id := "a", role := Role.assistant, content := "y" }] false)[0]? =
      some { id := "a", role := Role.assistant, content := "y",
             steps := some [{ name := "p", text := "", status := StepStatus.running }] } :=
  c1_amended_merge_matching.1
    [{ id := "a", role := Role.assistant, content := "x",
       steps := some [{ name := "p", text := "", status := StepStatus.running }] }]
    [{ id := "a", role := Role.assistant, content := "y" }] 0
    { id := "a", role := Role.assistant, content := "y" } 0
    { id := "a", role := Role.assistant, content := "x",
      steps := some [{ name := "p", text := "", status := StepStatus.running }] }
    [{ name := "p", text := "", status := StepStatus.running }]
    (by decide) (by decide) (by decide) (by decide)
    (fun i2 M2 h _ => Nat.lt_one_iff.mp (List.getElem?_eq_some.mp h).1) (by decide)

/-- Claim C8, counterexample: the merge adopts the authoritative
snapshot's own order wholesale, so a second snapshot listing the same
two identities in the opposite order reverses their established relative
order. -/

theorem c8_counterexample :
    idsOf (applyEvents
        [("f1", Event.messagesSnapshot
          [{ id := "a", role := Role.user, content := "hi" },
           { id := "b", role := Role.assistant, content := "yo" }])] initialState).messages =
      ["a", "b"] ∧
    idsOf (applyEvents
        [("f1", Event.messagesSnapshot
          [{ id := "a", role := Role.user, content := "hi" },
           { id := "b", role := Role.assistant, content := "yo" }]),
         ("f2", Event.messagesSnapshot
          [{ id := "b", role := Role.assistant, content := "yo" },
           { id := "a", role := Role.user, content := "hi" }])] initialState).messages =
      ["b", "a"] ∧
    isSubseq ["a", "b"] ["a", "b"] = true ∧ isSubseq ["a", "b"] ["b", "a"] = false := by
  decide

/-- Claim C8 (amended): every event preserves the established relative
order of two distinct message identities, provided a `MessagesSnapshot`
lists them in that order itself — the local handlers only append or
mutate the last message in place, while a snapshot replaces the
transcript with the snapshot's own id sequence, so the reconciler cannot
preserve order against a snapshot that reorders. -/

theorem c8_amended_order_preservation :
    ∀ (freshId : String) (e : Event) (s : AgentState) (x y : String),
      isSubseq [x, y] (idsOf s.messages) = true →
      (∀ snap, e = Event.messagesSnapshot snap →
        isSubseq [x, y] (snap.map (fun m => m.id)) = true) →
      isSubseq [x, y] (idsOf (applyEvent freshId e s).messages) = true := by
  intro freshId e s x y h1 h2
  cases e with
  | runStarted => exact h1
  | runFinished => exact h1
  | runError m => exact h1
  | textDelta buffer delta =>
    show isSubseq [x, y] (idsOf (onTextMessageContentEvent freshId buffer delta s.messages)) =
      true
    rcases idsOf_onTextMessageContentEvent freshId buffer delta s.messages with h | h
    · rw [h]; exact h1
    · rw [h]; exact isSubseq_append_right _ _ _ h1
  | stepStarted w =>
    show isSubseq [x, y] (idsOf (onStepStartedEvent freshId w s.messages)) = true
    rcases idsOf_onStepStartedEvent freshId w s.messages with h | h
    · rw [h]; exact h1
    · rw [h]; exact isSubseq_append_right _ _ _ h1
  | stepFinished w =>
    show isSubseq [x, y] (idsOf (onStepFinishedEvent w s.messages)) = true
    rw [idsOf_onStepFinishedEvent]
    exact h1
  | messagesSnapshot snap =>
    show isSubseq [x, y] (idsOf (mergeMessages s.messages snap s.isRunning)) = true
    rw [idsOf_mergeMessages]
    exact h2 snap rfl

theorem mem_of_mem_dropLast'' {α : Type} {a : α} {l : List α} (h : a ∈ l.dropLast) : a ∈ l :=
  (List.dropLast_sublist l).subset h

/-- Every step list produced by a resync merge is the step list of some
message of the previous transcript (the authoritative snapshot itself
carries no steps). -/

theorem mergeMessages_steps_source :
    ∀ (prev : List EnhancedMessage) (snap : List SnapMessage) (running : Bool)
      (m2 : EnhancedMessage), m2 ∈ mergeMessages prev snap running →
      m2.steps = none ∨ ∃ mp, mp ∈ prev ∧ mp.steps = m2.steps := by
  intro prev snap running m2 hmem
  have hwalk : ∀ mw : EnhancedMessage, mw ∈ mergeWalkTop prev snap →
      mw.steps = none ∨ ∃ mp, mp ∈ prev ∧ mp.steps = mw.steps := by
    intro mw hw
    rcases mergeWalk_steps_source (mergeBuild prev 0).1 (mergeBuild prev 0).2 snap 0 mw hw with
      hnone | ⟨l, hl, hsrc⟩
    · exact Or.inl hnone
    · right
      rcases hsrc with ⟨key, hkey⟩ | ⟨k, hk⟩
      · obtain ⟨mp, hmp, hmpl⟩ := mergeBuild_byId_value prev 0 key l hkey
        exact ⟨mp, hmp, by rw [hmpl, hl]⟩
      · obtain ⟨mp, hmp, hmpl⟩ := mergeBuild_byPos_value prev 0 k l hk
        exact ⟨mp, hmp, by rw [hmpl, hl]⟩
  rw [mergeMessages] at hmem
  cases running with
  | false =>
    rw [applyTailRule_false] at hmem
    exact hwalk m2 hmem
  | true =>
    cases hr : (mergeWalkTop prev snap).getLast? with
    | none =>
      rw [applyTailRule_true_result_empty hr] at hmem
      exact hwalk m2 hmem
    | some lr =>
      cases hp : prev.getLast? with
      | none =>
        rw [applyTailRule_true_prev_empty hp] at hmem
        exact hwalk m2 hmem
      | some lp =>
        rw [applyTailRule_true_some_some hr hp] at hmem
        by_cases hcond : lr.role = Role.assistant ∧ lp.role = Role.assistant ∧
            lp.steps.isSome = true ∧ lr.steps = none
        · rw [if_pos hcond] at hmem
          rcases List.mem_append.mp hmem with hd | hs
          · exact hwalk m2 (mem_of_mem_dropLast'' hd)
          · have hm2 : m2 = { lr with steps := lp.steps } := by simpa using hs
            right
            exact ⟨lp, getLast?_mem' hp, by rw [hm2]⟩
        · rw [if_neg hcond] at hmem
          exact hwalk m2 hmem

/-- Claim C6 (confirmed): after any single event, every step present in
the new state either already occurred (same name, text and status) in
the old state, or is the freshly started running step of a `StepStarted`
event, or is `completed` and descends from an old step with the same
name and text whose status was `running`.  In particular a status can
only move `running → completed`, never `completed → running`, and hence
changes at most once across any event sequence. -/

theorem c6_step_monotonicity :
    ∀ (freshId : String) (e : Event) (s : AgentState) (m2 : EnhancedMessage) (st2 : StepData),
      m2 ∈ (applyEvent freshId e s).messages → st2 ∈ m2.steps.getD [] →
      (∃ m ∈ s.messages, st2 ∈ m.steps.getD []) ∨
      (∃ wire, e = Event.stepStarted wire ∧ st2 = mkRunningStep wire) ∨
      (st2.status = StepStatus.completed ∧
        ∃ m ∈ s.messages, ∃ st ∈ m.steps.getD [],
          st = { st2 with status := StepStatus.running }) := by
  intro freshId e s m2 st2 hm hst
  cases e with
  | runStarted => exact Or.inl ⟨m2, hm, hst⟩
  | runFinished => exact Or.inl ⟨m2, hm, hst⟩
  | runError msg => exact Or.inl ⟨m2, hm, hst⟩
  | textDelta buffer delta =>
    have hm' : m2 ∈ onTextMessageContentEvent freshId buffer delta s.messages := hm
    cases hlast : s.messages.getLast? with
    | none =>
      rw [onText_eq_push_empty hlast] at hm'
      rcases List.mem_append.mp hm' with h | h
      · exact Or.inl ⟨m2, h, hst⟩
      · have hm2 : m2 = { id := freshId, role := Role.assistant,
                            content := pushContentJs buffer delta, steps := none } := by
          simpa using h
        rw [hm2] at hst
        simp at hst
    | some lm =>
      by_cases hrole : lm.role = Role.assistant
      · rw [onText_eq_update hlast hrole] at hm'
        rcases List.mem_append.mp hm' with h | h
        · exact Or.inl ⟨m2, mem_of_mem_dropLast'' h, hst⟩
        · have hm2 : m2 = { lm with content := resolveContentJs buffer delta lm.content } := by
            simpa using h
          rw [hm2] at hst
          exact Or.inl ⟨lm, getLast?_mem' hlast, hst⟩
      · rw [onText_eq_push_other hlast hrole] at hm'
        rcases List.mem_append.mp hm' with h | h
        · exact Or.inl ⟨m2, h, hst⟩
        · have hm2 : m2 = { id := freshId, role := Role.assistant,
                              content := pushContentJs buffer delta, steps := none } := by
            simpa using h
          rw [hm2] at hst
          simp at hst
  | stepStarted wire =>
    have hm' : m2 ∈ onStepStartedEvent freshId wire s.messages := hm
    cases hlast : s.messages.getLast? with
    | none =>
      rw [onStepStarted_eq_push_empty hlast] at hm'
      rcases List.mem_append.mp hm' with h | h
      · exact Or.inl ⟨m2, h, hst⟩
      · have hm2 : m2 = newStepMessage freshId wire := by simpa using h
        rw [hm2] at hst
        have hst2 : st2 = mkRunningStep wire := by simpa [newStepMessage] using hst
        exact Or.inr (Or.inl ⟨wire, rfl, hst2⟩)
    | some lm =>
      by_cases hrole : lm.role = Role.assistant
      · rw [onStepStarted_eq_update hlast hrole] at hm'
        rcases List.mem_append.mp hm' with h | h
        · exact Or.inl ⟨m2, mem_of_mem_dropLast'' h, hst⟩
        · have hm2 : m2 = { lm with
                              steps := some (lm.steps.getD [] ++ [mkRunningStep wire]) } := by
            simpa using h
          rw [hm2] at hst
          have hst' : st2 ∈ lm.steps.getD [] ++ [mkRunningStep wire] := by simpa using hst
          rcases List.mem_append.mp hst' with h2 | h2
          · exact Or.inl ⟨lm, getLast?_mem' hlast, h2⟩
          · exact Or.inr (Or.inl ⟨wire, rfl, by simpa using h2⟩)
      · rw [onStepStarted_eq_push_other hlast hrole] at hm'
        rcases List.mem_append.mp hm' with h | h
        · exact Or.inl ⟨m2, h, hst⟩
        · have hm2 : m2 = newStepMessage freshId wire := by simpa using h
          rw [hm2] at hst
          have hst2 : st2 = mkRunningStep wire := by simpa [newStepMessage] using hst
          exact Or.inr (Or.inl ⟨wire, rfl, hst2⟩)
  | stepFinished wire =>
    have hm' : m2 ∈ onStepFinishedEvent wire s.messages := hm
    cases hlast : s.messages.getLast? with
    | none =>
      rw [onStepFinished_eq_noop_empty hlast] at hm'
      exact Or.inl ⟨m2, hm', hst⟩
    | some lm =>
      cases hsteps : lm.steps with
      | none =>
        rw [onStepFinished_eq_noop_nosteps hlast hsteps] at hm'
        exact Or.inl ⟨m2, hm', hst⟩
      | some steps =>
        by_cases hrole : lm.role = Role.assistant
        · rw [onStepFinished_eq_update hlast hsteps hrole] at hm'
          rcases List.mem_append.mp hm' with h | h
          · exact Or.inl ⟨m2, mem_of_mem_dropLast'' h, hst⟩
          · have hm2 : m2 = { lm with
                                steps := some (steps.map (completeStep (decodeStep wire).1)) } := by
              simpa using h
            rw [hm2] at hst
            have hst' : st2 ∈ steps.map (completeStep (decodeStep wire).1) := by simpa using hst
            obtain ⟨st, hstmem, hfst⟩ := List.mem_map.mp hst'
            have hstlm : st ∈ lm.steps.getD [] := by rw [hsteps]; exact hstmem
            by_cases hcond : st.name = (decodeStep wire).1 ∧ st.status = StepStatus.running
            · have hst2 : st2 = { st with status := StepStatus.completed } := by
                rw [← hfst, completeStep, if_pos hcond]
              refine Or.inr (Or.inr ⟨by rw [hst2], lm, getLast?_mem' hlast, st, hstlm, ?_⟩)
              rw [hst2]
              cases st with
              | mk n t sst =>
                have : sst = StepStatus.running := hcond.2
                rw [this]
            · have hst2 : st2 = st := by rw [← hfst, completeStep, if_neg hcond]
              rw [hst2]
              exact Or.inl ⟨lm, getLast?_mem' hlast, hstlm⟩
        · rw [onStepFinished_eq_noop_other hlast hsteps hrole] at hm'
          exact Or.inl ⟨m2, hm', hst⟩
  | messagesSnapshot snap =>
    have hm' : m2 ∈ mergeMessages s.messages snap s.isRunning := hm
    rcases mergeMessages_steps_source s.messages snap s.isRunning m2 hm' with hnone | ⟨mp, hmp, hmpsteps⟩
    · rw [hnone] at hst
      simp at hst
    · refine Or.inl ⟨mp, hmp, ?_⟩
      rw [hmpsteps]
      exact hst

/-- Claim C6, witness: `StepFinished("A")` on a transcript with one
running step named `"A"` yields a completed step descending from that
running step. -/
theorem c6_witness :
    (∃ m ∈ [msgWithRunningA], stepACompleted ∈ m.steps.getD []) ∨
    (∃ wire, Event.stepFinished "A" = Event.stepStarted wire ∧
      stepACompleted = mkRunningStep wire) ∨
    (stepACompleted.status = StepStatus.completed ∧
      ∃ m ∈ [msgWithRunningA], ∃ st ∈ m.steps.getD [],
        st = { stepACompleted with status := StepStatus.running }) :=
  c6_step_monotonicity "f" (Event.stepFinished "A") stateWithRunningA
    msgWithCompletedA stepACompleted (by decide) (by decide)

/-- Claim C8, witness: a step event on a two-message transcript keeps
the id order. -/

theorem c8_witness :
    isSubseq ["a", "b"] (idsOf (applyEvent "f" (Event.stepStarted "S")
      { messages := [{ id := "a", role := Role.user, content := "1", steps := none },
                     { id := "b", role := Role.assistant, content := "2", steps := none }],
        isRunning := true, streamingText := none, error := none }).messages) = true :=
  c8_amended_order_preservation "f" (Event.stepStarted "S")
    { messages := [{ id := "a", role := Role.user, content := "1", steps := none },
                   { id := "b", role := Role.assistant, content := "2", steps := none }],
      isRunning := true, streamingText := none, error := none } "a" "b"
    (by decide) (fun snap h => nomatch h)


end AgenticChat
